import Mathlib

/-!
# Verification of the go-sudoku core (grid model, solver, generator, codec)

This file is a shallow embedding, in Lean 4, of the core of the `go-sudoku`
repository: the generalised Sudoku grid (`grid.go`), its validator, the
backtracking solver, the uniqueness counter, the puzzle generator, the
string codec (`grid.go` / `parse.go`), and the hint helper.

Modelling conventions:
* Go's `[][]int` cells are modelled as `List (List Nat)`; out-of-range reads
  default to `0` (the Go code never reads out of range on well-formed grids,
  which is captured by the `Grid.WF` predicate).  Cell values are modelled as
  `Nat`: a negative Go `int` value behaves in every operation of the source
  (`Validate`, `isSafe`, `findEmpty`, clue counting) exactly like an
  over-range positive value, so `Nat` together with the upper-bound check
  loses no behaviour.
* The shared pseudo-random source `globalRand` is modelled as explicit
  state threaded through the functions; the two operations the core uses,
  `Shuffle` and `Perm`, are fields of an abstract `Rng` record.  The
  hypothesis `Rng.WF` states what Go guarantees: a shuffle returns a
  permutation of its input and `Perm n` returns a permutation of `0..n-1`.
* Go's recursion terminates because each recursive call fills an empty
  cell; the embedding uses explicit fuel `size*size + 1`, which is proved
  (or used in a way that only requires it) to be sufficient.
-/

namespace GoSudoku

/-- A generalised Sudoku grid: `Grid` from `grid.go`.  `size` is S,
boxes are `boxRows × boxCols`, and `cells` is the row-major matrix with
`0` denoting an empty cell. -/
structure Grid where
  size : Nat
  boxRows : Nat
  boxCols : Nat
  cells : List (List Nat)
deriving DecidableEq, Repr

namespace Grid

/-- Read a cell; Go `g.Cells[r][c]` (in-range on well-formed grids). -/
def get (g : Grid) (r c : Nat) : Nat :=
  (g.cells.getD r []).getD c 0

/-- Write a cell; Go `g.Cells[r][c] = v`. -/
def setCell (g : Grid) (r c v : Nat) : Grid :=
  { g with cells := g.cells.set r ((g.cells.getD r []).set c v) }

/-- Well-formedness of a grid as produced by `NewGrid` in `grid.go`:
the cell matrix is `size × size` and the dimensions satisfy
`size = boxRows * boxCols` with positive box dimensions. -/
def WF (g : Grid) : Prop :=
  g.cells.length = g.size ∧ (∀ row ∈ g.cells, row.length = g.size) ∧
    g.size = g.boxRows * g.boxCols ∧ 0 < g.boxRows ∧ 0 < g.boxCols

instance : DecidablePred WF := by
  intro g
  unfold WF
  infer_instance

@[simp] theorem setCell_size (g : Grid) (r c v : Nat) :
    (g.setCell r c v).size = g.size := rfl

@[simp] theorem setCell_boxRows (g : Grid) (r c v : Nat) :
    (g.setCell r c v).boxRows = g.boxRows := rfl

@[simp] theorem setCell_boxCols (g : Grid) (r c v : Nat) :
    (g.setCell r c v).boxCols = g.boxCols := rfl

theorem WF.setCell {g : Grid} (h : g.WF) (r c v : Nat) : (g.setCell r c v).WF := by
  obtain ⟨hlen, hrows, hdim, hbr, hbc⟩ := h
  refine ⟨?_, ?_, hdim, hbr, hbc⟩
  · simpa [Grid.setCell] using hlen
  · intro row hrow
    simp only [Grid.setCell] at hrow
    rcases Nat.lt_or_ge r g.cells.length with hr | hr
    · rcases List.mem_or_eq_of_mem_set hrow with h | h
      · exact hrows _ h
      · subst h
        have : g.cells.getD r [] = g.cells[r] := by
          simp [List.getD_eq_getElem?_getD, List.getElem?_eq_getElem hr]
        rw [this, List.length_set]
        exact hrows _ (List.getElem_mem hr)
    · rw [List.set_eq_of_length_le hr] at hrow
      exact hrows _ hrow

theorem get_setCell_self {g : Grid} (h : g.WF) {r c : Nat}
    (hr : r < g.size) (hc : c < g.size) (v : Nat) :
    (g.setCell r c v).get r c = v := by
  obtain ⟨hlen, hrows, -, -, -⟩ := h
  have hrl : r < g.cells.length := by omega
  have hcl : c < g.cells[r].length := by
    have := hrows _ (List.getElem_mem hrl)
    omega
  simp only [Grid.get, Grid.setCell, List.getD_eq_getElem?_getD]
  rw [List.getElem?_set_self (by simpa using hrl)]
  simp [List.getElem?_eq_getElem hrl, List.getElem?_set_self hcl]

theorem get_setCell_ne (g : Grid) {r c r' c' : Nat} (v : Nat)
    (h : r ≠ r' ∨ c ≠ c') :
    (g.setCell r c v).get r' c' = g.get r' c' := by
  rcases h with h | h
  · simp [Grid.get, Grid.setCell, List.getD_eq_getElem?_getD,
      List.getElem?_set_ne h]
  · simp only [Grid.get, Grid.setCell, List.getD_eq_getElem?_getD]
    rcases Nat.decEq r r' with hr | hr
    · rw [List.getElem?_set_ne hr]
    · subst hr
      rcases Nat.lt_or_ge r g.cells.length with hrl | hrl
      · rw [List.getElem?_set_self hrl]
        simp [List.getElem?_eq_getElem hrl, List.getElem?_set_ne h]
      · rw [List.set_eq_of_length_le (by omega)]

/-- Two well-formed grids with the same dimensions and the same cell values
are equal. -/
theorem ext_of_pointwise {g g' : Grid} (hg : g.WF) (hg' : g'.WF)
    (hsz : g.size = g'.size) (hbr : g.boxRows = g'.boxRows)
    (hbc : g.boxCols = g'.boxCols)
    (hget : ∀ r c, r < g.size → c < g.size → g.get r c = g'.get r c) :
    g = g' := by
  obtain ⟨hlen, hrows, -, -, -⟩ := hg
  obtain ⟨hlen', hrows', -, -, -⟩ := hg'
  cases g with
  | mk s br bc cs =>
    cases g' with
    | mk s' br' bc' cs' =>
      simp only at hsz hbr hbc hlen hlen' hrows hrows' hget
      subst hsz hbr hbc
      have hcs : cs = cs' := by
        apply List.ext_getElem (by omega)
        intro r h1 h2
        apply List.ext_getElem
        · rw [hrows _ (List.getElem_mem h1), hrows' _ (List.getElem_mem h2)]
        · intro c hc1 hc2
          have hr : r < s := by omega
          have hc : c < s := by
            have := hrows _ (List.getElem_mem h1); omega
          have := hget r c hr hc
          simp only [Grid.get, List.getD_eq_getElem?_getD,
            List.getElem?_eq_getElem h1, List.getElem?_eq_getElem h2] at this
          simpa [List.getElem?_eq_getElem hc1, List.getElem?_eq_getElem hc2]
            using this
      subst hcs
      rfl

end Grid

/-- The candidate list built in `backtrack` (`grid.go`): `vals[i] = i+1`,
i.e. the list `[1, …, size]` (before the shuffle). -/
def valsList (n : Nat) : List Nat := (List.range n).map (· + 1)

theorem mem_valsList {n v : Nat} : v ∈ valsList n ↔ 1 ≤ v ∧ v ≤ n := by
  constructor
  · intro h
    simp only [valsList, List.mem_map, List.mem_range] at h
    obtain ⟨a, ha, rfl⟩ := h
    omega
  · intro h
    simp only [valsList, List.mem_map, List.mem_range]
    exact ⟨v - 1, by omega, by omega⟩

theorem nodup_valsList (n : Nat) : (valsList n).Nodup := by
  exact (List.nodup_range n).map (fun a b => by omega)

@[simp] theorem length_valsList (n : Nat) : (valsList n).length = n := by
  simp [valsList]

namespace Grid

/-- `findEmpty` of `grid.go`: the first cell equal to `0` in row-major
scan order, if any. -/
def findEmpty (g : Grid) : Option (Nat × Nat) :=
  (List.range g.size).findSome? fun r =>
    ((List.range g.size).find? fun c => g.get r c == 0).map fun c => (r, c)

theorem findEmpty_eq_none_iff {g : Grid} :
    g.findEmpty = none ↔ ∀ r c, r < g.size → c < g.size → g.get r c ≠ 0 := by
  simp only [findEmpty, List.findSome?_eq_none_iff, List.mem_range,
    Option.map_eq_none', List.find?_eq_none, beq_iff_eq]
  constructor
  · intro h r c hr hc
    exact h r hr c (by simpa using hc)
  · intro h r hr c hc
    exact h r c hr (by simpa using hc)

theorem findEmpty_eq_some {g : Grid} {r c : Nat}
    (h : g.findEmpty = some (r, c)) :
    r < g.size ∧ c < g.size ∧ g.get r c = 0 := by
  simp only [findEmpty] at h
  obtain ⟨a, ha, hf⟩ := List.exists_of_findSome?_eq_some h
  simp only [Option.map_eq_some'] at hf
  obtain ⟨c0, hc0, heq⟩ := hf
  cases heq
  refine ⟨by simpa using ha, ?_, ?_⟩
  · simpa using List.mem_of_find?_eq_some hc0
  · simpa using List.find?_some hc0

/-- `isSafe` of `grid.go`: value `v` clashes with no cell in row `r`,
column `c`, or the `boxRows × boxCols` box containing `(r, c)`. -/
def isSafe (w : Grid) (r c v : Nat) : Bool :=
  ((List.range w.size).all fun i => !(w.get r i == v) && !(w.get i c == v)) &&
  (let br := r / w.boxRows * w.boxRows
   let bc := c / w.boxCols * w.boxCols
   (List.range w.boxRows).all fun i =>
     (List.range w.boxCols).all fun j => !(w.get (br + i) (bc + j) == v))

theorem isSafe_iff {w : Grid} {r c v : Nat} :
    w.isSafe r c v = true ↔
      (∀ i, i < w.size → w.get r i ≠ v ∧ w.get i c ≠ v) ∧
      (∀ i j, i < w.boxRows → j < w.boxCols →
        w.get (r / w.boxRows * w.boxRows + i) (c / w.boxCols * w.boxCols + j) ≠ v) := by
  simp only [isSafe, Bool.and_eq_true, List.all_eq_true, List.mem_range,
    Bool.not_eq_eq_eq_not, Bool.not_true, beq_eq_false_iff_ne]
  constructor
  · intro ⟨h1, h2⟩
    refine ⟨fun i hi => ?_, fun i j hi hj => ?_⟩
    · simpa using h1 i hi
    · exact h2 i hi j hj
  · intro ⟨h1, h2⟩
    refine ⟨fun i hi => ?_, fun i hi j hj => ?_⟩
    · simpa using h1 i hi
    · exact h2 i j hi hj

/-- A grid with no empty cell. -/
def Full (g : Grid) : Prop :=
  ∀ r c, r < g.size → c < g.size → g.get r c ≠ 0

/-- `w' extends w`: every originally non-zero cell of `w` holds the same
value in `w'`. -/
def Extends (w' w : Grid) : Prop :=
  ∀ r c, r < w.size → c < w.size → w.get r c ≠ 0 → w'.get r c = w.get r c

theorem Extends.refl (w : Grid) : Extends w w := fun _ _ _ _ _ => rfl

theorem findEmpty_eq_none_of_full {g : Grid} (h : Full g) :
    g.findEmpty = none :=
  findEmpty_eq_none_iff.mpr h

/-- Number of empty cells (termination / fuel measure; not in the source). -/
def countEmpty (g : Grid) : Nat :=
  (((List.range g.size) ×ˢ (List.range g.size)).filter
    (fun p => g.get p.1 p.2 == 0)).length

theorem countEmpty_le (g : Grid) : g.countEmpty ≤ g.size * g.size := by
  calc (((List.range g.size) ×ˢ (List.range g.size)).filter
      (fun p => g.get p.1 p.2 == 0)).length
      ≤ ((List.range g.size) ×ˢ (List.range g.size)).length :=
        List.length_filter_le _ _
    _ = g.size * g.size := by simp [List.length_product]

end Grid

/-- One step of the duplicate scan of `Validate` (`grid.go`): the Go code
keeps a `seen` boolean array and fails on an out-of-range value or on a
repeated non-zero value; the boolean array is modelled by the list of
values seen so far, `none` modelling the `ErrInvalidBoard` early return. -/
def scanStep (bound : Nat) (acc : Option (List Nat)) (v : Nat) :
    Option (List Nat) :=
  match acc with
  | none => none
  | some seen =>
    if bound < v then none
    else if v ≠ 0 then (if seen.contains v then none else some (v :: seen))
    else some seen

/-- The duplicate/range scan of one row, column or box of `Validate`. -/
def scanDups (bound : Nat) (vals : List Nat) : Bool :=
  (vals.foldl (scanStep bound) (some [])).isSome

/-- The pairwise condition enforced by the scan: no two equal non-zero
values. -/
def NZNe (a b : Nat) : Prop := a = 0 ∨ b = 0 ∨ a ≠ b

theorem NZNe.symm {a b : Nat} (h : NZNe a b) : NZNe b a := by
  rcases h with h | h | h
  · exact Or.inr (Or.inl h)
  · exact Or.inl h
  · exact Or.inr (Or.inr (Ne.symm h))

theorem foldl_scanStep_none (bound : Nat) (l : List Nat) :
    l.foldl (scanStep bound) none = none := by
  induction l with
  | nil => rfl
  | cons v l ih => simpa [scanStep] using ih

theorem foldl_scanStep_iff (bound : Nat) :
    ∀ (l seen : List Nat),
    (l.foldl (scanStep bound) (some seen)).isSome = true ↔
      ((∀ v ∈ l, v ≤ bound) ∧ l.Pairwise NZNe ∧
       (∀ v ∈ l, v ≠ 0 → v ∉ seen))
  | [], seen => by simp
  | v :: l, seen => by
    rw [List.foldl_cons]
    by_cases hb : bound < v
    · rw [show scanStep bound (some seen) v = none by simp [scanStep, hb]]
      rw [foldl_scanStep_none]
      simp only [Option.isSome_none, Bool.false_eq_true, false_iff]
      intro ⟨hA, _, _⟩
      have := hA v (by simp)
      omega
    · by_cases hv : v = 0
      · subst hv
        rw [show scanStep bound (some seen) 0 = some seen by simp [scanStep]]
        rw [foldl_scanStep_iff bound l seen]
        constructor
        · intro ⟨hA, hB, hC⟩
          refine ⟨?_, ?_, ?_⟩
          · intro u hu
            rcases List.mem_cons.mp hu with rfl | hu
            · omega
            · exact hA u hu
          · exact List.pairwise_cons.mpr ⟨fun b _ => Or.inl rfl, hB⟩
          · intro u hu hu0
            rcases List.mem_cons.mp hu with rfl | hu
            · exact absurd rfl hu0
            · exact hC u hu hu0
        · intro ⟨hA, hB, hC⟩
          exact ⟨fun u hu => hA u (List.mem_cons_of_mem _ hu),
            (List.pairwise_cons.mp hB).2,
            fun u hu hu0 => hC u (List.mem_cons_of_mem _ hu) hu0⟩
      · by_cases hs : v ∈ seen
        · rw [show scanStep bound (some seen) v = none by
            simp [scanStep, hb, hv, hs]]
          rw [foldl_scanStep_none]
          simp only [Option.isSome_none, Bool.false_eq_true, false_iff]
          intro ⟨_, _, hC⟩
          exact hC v (by simp) hv hs
        · rw [show scanStep bound (some seen) v = some (v :: seen) by
            simp [scanStep, hb, hv, hs]]
          rw [foldl_scanStep_iff bound l (v :: seen)]
          constructor
          · intro ⟨hA, hB, hC⟩
            refine ⟨?_, ?_, ?_⟩
            · intro u hu
              rcases List.mem_cons.mp hu with rfl | hu
              · omega
              · exact hA u hu
            · refine List.pairwise_cons.mpr ⟨?_, hB⟩
              intro b hbmem
              by_cases hb0 : b = 0
              · exact Or.inr (Or.inl hb0)
              · have := hC b hbmem hb0
                simp only [List.mem_cons, not_or] at this
                exact Or.inr (Or.inr (Ne.symm this.1))
            · intro u hu hu0
              rcases List.mem_cons.mp hu with rfl | hu
              · exact hs
              · have := hC u hu hu0
                simp only [List.mem_cons, not_or] at this
                exact this.2
          · intro ⟨hA, hB, hC⟩
            obtain ⟨hBv, hBl⟩ := List.pairwise_cons.mp hB
            refine ⟨fun u hu => hA u (List.mem_cons_of_mem _ hu), hBl, ?_⟩
            intro u hu hu0
            simp only [List.mem_cons, not_or]
            refine ⟨?_, hC u (List.mem_cons_of_mem _ hu) hu0⟩
            rcases hBv u hu with h0 | h0 | h0
            · exact absurd h0 hv
            · exact absurd h0 hu0
            · exact fun heq => h0 heq.symm

theorem scanDups_iff (bound : Nat) (l : List Nat) :
    scanDups bound l = true ↔ (∀ v ∈ l, v ≤ bound) ∧ l.Pairwise NZNe := by
  rw [scanDups, foldl_scanStep_iff]
  simp

theorem pairwise_range_iff {n : Nat} {R : Nat → Nat → Prop} :
    (List.range n).Pairwise R ↔ ∀ i j, i < j → j < n → R i j := by
  rw [List.pairwise_iff_getElem]
  simp only [List.length_range, List.getElem_range]
  constructor
  · intro h i j hij hj
    exact h i j (lt_trans hij hj) hj hij
  · intro h i j _hi hj hij
    exact h i j hij hj

theorem scanDups_map_range_iff (bound n : Nat) (f : Nat → Nat) :
    scanDups bound ((List.range n).map f) = true ↔
      (∀ k, k < n → f k ≤ bound) ∧
      (∀ k1 k2, k1 < k2 → k2 < n → NZNe (f k1) (f k2)) := by
  rw [scanDups_iff]
  constructor
  · intro ⟨hA, hB⟩
    refine ⟨fun k hk =>
      hA _ (List.mem_map_of_mem _ (List.mem_range.mpr hk)), ?_⟩
    intro k1 k2 h12 h2
    exact (pairwise_range_iff.mp (List.pairwise_map.mp hB)) k1 k2 h12 h2
  · intro ⟨hA, hB⟩
    refine ⟨?_, List.pairwise_map.mpr (pairwise_range_iff.mpr hB)⟩
    intro v hv
    obtain ⟨k, hk, rfl⟩ := List.mem_map.mp hv
    exact hA k (List.mem_range.mp hk)

theorem ceilDiv_of_dvd {s R : Nat} (hR : 0 < R) (hdvd : R ∣ s) :
    (s + R - 1) / R = s / R := by
  obtain ⟨q, rfl⟩ := hdvd
  have h1 : R * q + R - 1 = (R - 1) + R * q := by omega
  rw [h1, Nat.add_mul_div_left _ _ hR, Nat.div_eq_of_lt (by omega),
    Nat.mul_div_cancel_left q hR, Nat.zero_add]

namespace Grid

/-- The values of row `i` in column order (the `rv` scan of `Validate`). -/
def rowVals (g : Grid) (i : Nat) : List Nat :=
  (List.range g.size).map fun j => g.get i j

/-- The values of column `i` in row order (the `cv` scan of `Validate`). -/
def colVals (g : Grid) (i : Nat) : List Nat :=
  (List.range g.size).map fun j => g.get j i

/-- Row-major list of the values of the box with top-left corner
`(br, bc)`: the nested `r`/`c` loop of `Validate` (`grid.go`) enumerates
the box cells in exactly this order, cell `k` being at row offset
`k / boxCols` and column offset `k % boxCols`. -/
def boxVals (g : Grid) (br bc : Nat) : List Nat :=
  (List.range (g.boxRows * g.boxCols)).map fun k =>
    g.get (br + k / g.boxCols) (bc + k % g.boxCols)

/-- The box corners visited by `for br := 0; br < s; br += step`. -/
def boxStarts (size step : Nat) : List Nat :=
  (List.range ((size + step - 1) / step)).map (· * step)

/-- `Validate` of `grid.go` as a boolean: values in range and no non-zero
duplicate in any row, column or box.  Go interleaves the row and column
scans in one loop and reports the single error `ErrInvalidBoard` from
whichever check fails first; since the result is only pass/fail, the
checks are stated as one conjunction. -/
def validateB (g : Grid) : Bool :=
  (((List.range g.size).all fun i =>
    scanDups g.size (g.rowVals i) && scanDups g.size (g.colVals i))) &&
  ((boxStarts g.size g.boxRows).all fun br =>
    (boxStarts g.size g.boxCols).all fun bc =>
      scanDups g.size (g.boxVals br bc))

/-- Two cells lie in the same `boxRows × boxCols` box. -/
def SameBox (g : Grid) (r1 c1 r2 c2 : Nat) : Prop :=
  r1 / g.boxRows = r2 / g.boxRows ∧ c1 / g.boxCols = c2 / g.boxCols

end Grid

theorem NZNe.ne_of_left {a b : Nat} (h : NZNe a b) (ha : a ≠ 0) : a ≠ b := by
  rcases h with h | h | h
  · exact absurd h ha
  · intro heq
    exact ha (heq.trans h)
  · exact h

namespace Grid

theorem idx_div_mod {C : Nat} (hC : 0 < C) (i j : Nat) (hj : j < C) :
    (i * C + j) / C = i ∧ (i * C + j) % C = j := by
  constructor
  · rw [show i * C + j = j + C * i by ring, Nat.add_mul_div_left _ _ hC,
      Nat.div_eq_of_lt hj, Nat.zero_add]
  · rw [show i * C + j = j + C * i by ring, Nat.add_mul_mod_self_left,
      Nat.mod_eq_of_lt hj]

theorem idx_lt {R C : Nat} (i j : Nat) (hi : i < R) (hj : j < C) :
    i * C + j < R * C := by
  calc i * C + j < i * C + C := by omega
    _ = (i + 1) * C := by ring
    _ ≤ R * C := Nat.mul_le_mul_right _ (by omega)

theorem mem_boxStarts {s step br : Nat} :
    br ∈ boxStarts s step ↔ ∃ m, m < (s + step - 1) / step ∧ br = m * step := by
  simp only [boxStarts, List.mem_map, List.mem_range]
  constructor
  · intro ⟨m, hm, heq⟩
    exact ⟨m, hm, heq.symm⟩
  · intro ⟨m, hm, heq⟩
    exact ⟨m, hm, heq.symm⟩

/-- Declarative validity: all values in `[0, size]` and no two equal
non-zero values in a row, a column, or a box. -/
def ValidD (g : Grid) : Prop :=
  (∀ r c, r < g.size → c < g.size → g.get r c ≤ g.size) ∧
  (∀ r c1 c2, r < g.size → c1 < g.size → c2 < g.size → c1 ≠ c2 →
    g.get r c1 ≠ 0 → g.get r c1 ≠ g.get r c2) ∧
  (∀ c r1 r2, c < g.size → r1 < g.size → r2 < g.size → r1 ≠ r2 →
    g.get r1 c ≠ 0 → g.get r1 c ≠ g.get r2 c) ∧
  (∀ r1 c1 r2 c2, r1 < g.size → c1 < g.size → r2 < g.size → c2 < g.size →
    g.SameBox r1 c1 r2 c2 → (r1, c1) ≠ (r2, c2) →
    g.get r1 c1 ≠ 0 → g.get r1 c1 ≠ g.get r2 c2)

theorem rowVals_eq (g : Grid) (i : Nat) :
    g.rowVals i = (List.range g.size).map (fun j => g.get i j) := rfl

theorem colVals_eq (g : Grid) (i : Nat) :
    g.colVals i = (List.range g.size).map (fun j => g.get j i) := rfl

theorem boxVals_eq (g : Grid) (br bc : Nat) :
    g.boxVals br bc = (List.range (g.boxRows * g.boxCols)).map
      (fun k => g.get (br + k / g.boxCols) (bc + k % g.boxCols)) := rfl

theorem divmul_add_mod (a b : Nat) : a / b * b + a % b = a := by
  have h := Nat.div_add_mod a b
  have hmc : a / b * b = b * (a / b) := Nat.mul_comm _ _
  omega

theorem band_lt {s R : Nat} (hdvd : R ∣ s) {m off : Nat}
    (hm : m < s / R) (hoff : off < R) : m * R + off < s := by
  have h1 : (m + 1) * R = m * R + R := by ring
  have h2 : (m + 1) * R ≤ (s / R) * R := Nat.mul_le_mul_right _ (by omega)
  have h3 : (s / R) * R = s := Nat.div_mul_cancel hdvd
  omega

theorem band_div {R : Nat} (m off : Nat) (hoff : off < R) :
    (m * R + off) / R = m := by
  apply Nat.div_eq_of_lt_le
  · exact Nat.le_add_right _ _
  · have : (m + 1) * R = m * R + R := by ring
    omega

/-- If all box scans of `Validate` pass, any two distinct cells of a
common box satisfy the no-duplicate condition. -/
theorem boxScan_forward {g : Grid} (hWF : g.WF)
    (hbox : ∀ br ∈ boxStarts g.size g.boxRows,
      ∀ bc ∈ boxStarts g.size g.boxCols,
        scanDups g.size (g.boxVals br bc) = true) :
    ∀ r1 c1 r2 c2, r1 < g.size → c1 < g.size → r2 < g.size → c2 < g.size →
      g.SameBox r1 c1 r2 c2 → (r1, c1) ≠ (r2, c2) →
      NZNe (g.get r1 c1) (g.get r2 c2) := by
  obtain ⟨-, -, hdim, hR, hC⟩ := hWF
  intro r1 c1 r2 c2 h1 h2 h3 h4 hsb hne
  obtain ⟨hrdiv, hcdiv⟩ := hsb
  have hdvdR : g.boxRows ∣ g.size := ⟨g.boxCols, hdim⟩
  have hdvdC : g.boxCols ∣ g.size := ⟨g.boxRows, by rw [hdim, Nat.mul_comm]⟩
  have hbrmem : r1 / g.boxRows * g.boxRows ∈ boxStarts g.size g.boxRows := by
    rw [mem_boxStarts]
    refine ⟨r1 / g.boxRows, ?_, rfl⟩
    rw [ceilDiv_of_dvd hR hdvdR]
    exact Nat.div_lt_div_of_lt_of_dvd hdvdR h1
  have hbcmem : c1 / g.boxCols * g.boxCols ∈ boxStarts g.size g.boxCols := by
    rw [mem_boxStarts]
    refine ⟨c1 / g.boxCols, ?_, rfl⟩
    rw [ceilDiv_of_dvd hC hdvdC]
    exact Nat.div_lt_div_of_lt_of_dvd hdvdC h2
  have hscan := hbox _ hbrmem _ hbcmem
  rw [boxVals_eq, scanDups_map_range_iff] at hscan
  obtain ⟨-, hB⟩ := hscan
  have hkd1 := idx_div_mod hC (r1 % g.boxRows) (c1 % g.boxCols)
    (Nat.mod_lt _ hC)
  have hkd2 := idx_div_mod hC (r2 % g.boxRows) (c2 % g.boxCols)
    (Nat.mod_lt _ hC)
  have hlt1 : r1 % g.boxRows * g.boxCols + c1 % g.boxCols <
      g.boxRows * g.boxCols := idx_lt _ _ (Nat.mod_lt _ hR) (Nat.mod_lt _ hC)
  have hlt2 : r2 % g.boxRows * g.boxCols + c2 % g.boxCols <
      g.boxRows * g.boxCols := idx_lt _ _ (Nat.mod_lt _ hR) (Nat.mod_lt _ hC)
  have hv1 : g.get
      (r1 / g.boxRows * g.boxRows +
        (r1 % g.boxRows * g.boxCols + c1 % g.boxCols) / g.boxCols)
      (c1 / g.boxCols * g.boxCols +
        (r1 % g.boxRows * g.boxCols + c1 % g.boxCols) % g.boxCols) =
      g.get r1 c1 := by
    rw [hkd1.1, hkd1.2, divmul_add_mod, divmul_add_mod]
  have hv2 : g.get
      (r1 / g.boxRows * g.boxRows +
        (r2 % g.boxRows * g.boxCols + c2 % g.boxCols) / g.boxCols)
      (c1 / g.boxCols * g.boxCols +
        (r2 % g.boxRows * g.boxCols + c2 % g.boxCols) % g.boxCols) =
      g.get r2 c2 := by
    rw [hkd2.1, hkd2.2, hrdiv, hcdiv, divmul_add_mod, divmul_add_mod]
  have hkne : r1 % g.boxRows * g.boxCols + c1 % g.boxCols ≠
      r2 % g.boxRows * g.boxCols + c2 % g.boxCols := by
    intro heq
    have hra : r1 % g.boxRows = r2 % g.boxRows := by
      have e1 := hkd1.1
      have e2 := hkd2.1
      rw [heq] at e1
      omega
    have hca : c1 % g.boxCols = c2 % g.boxCols := by
      have e1 := hkd1.2
      have e2 := hkd2.2
      rw [heq] at e1
      omega
    have hr12 : r1 = r2 := by
      have e1 := divmul_add_mod r1 g.boxRows
      have e2 := divmul_add_mod r2 g.boxRows
      rw [hrdiv] at e1
      omega
    have hc12 : c1 = c2 := by
      have e1 := divmul_add_mod c1 g.boxCols
      have e2 := divmul_add_mod c2 g.boxCols
      rw [hcdiv] at e1
      omega
    exact hne (by rw [hr12, hc12])
  rcases Nat.lt_or_ge (r1 % g.boxRows * g.boxCols + c1 % g.boxCols)
      (r2 % g.boxRows * g.boxCols + c2 % g.boxCols) with hlt | hge
  · have hnz := hB _ _ hlt hlt2
    simp only [hv1, hv2] at hnz
    exact hnz
  · have hlt : r2 % g.boxRows * g.boxCols + c2 % g.boxCols <
        r1 % g.boxRows * g.boxCols + c1 % g.boxCols := by omega
    have hnz := hB _ _ hlt hlt1
    simp only [hv1, hv2] at hnz
    exact hnz.symm

/-- Conversely, declarative validity makes every box scan pass. -/
theorem boxScan_backward {g : Grid} (hWF : g.WF)
    (hIR : ∀ r c, r < g.size → c < g.size → g.get r c ≤ g.size)
    (hBox : ∀ r1 c1 r2 c2, r1 < g.size → c1 < g.size → r2 < g.size →
      c2 < g.size → g.SameBox r1 c1 r2 c2 → (r1, c1) ≠ (r2, c2) →
      g.get r1 c1 ≠ 0 → g.get r1 c1 ≠ g.get r2 c2) :
    ∀ br ∈ boxStarts g.size g.boxRows, ∀ bc ∈ boxStarts g.size g.boxCols,
      scanDups g.size (g.boxVals br bc) = true := by
  obtain ⟨-, -, hdim, hR, hC⟩ := hWF
  have hdvdR : g.boxRows ∣ g.size := ⟨g.boxCols, hdim⟩
  have hdvdC : g.boxCols ∣ g.size := ⟨g.boxRows, by rw [hdim, Nat.mul_comm]⟩
  intro br hbr bc hbc
  rw [mem_boxStarts, ceilDiv_of_dvd hR hdvdR] at hbr
  rw [mem_boxStarts, ceilDiv_of_dvd hC hdvdC] at hbc
  obtain ⟨m, hm, rfl⟩ := hbr
  obtain ⟨m2, hm2, rfl⟩ := hbc
  rw [boxVals_eq, scanDups_map_range_iff]
  have hoffR : ∀ k, k < g.boxRows * g.boxCols → k / g.boxCols < g.boxRows := by
    intro k hk
    rw [Nat.div_lt_iff_lt_mul hC]
    exact hk
  have hrowlt : ∀ k, k < g.boxRows * g.boxCols →
      m * g.boxRows + k / g.boxCols < g.size :=
    fun k hk => band_lt hdvdR hm (hoffR k hk)
  have hcollt : ∀ k, k < g.boxRows * g.boxCols →
      m2 * g.boxCols + k % g.boxCols < g.size :=
    fun k hk => band_lt hdvdC hm2 (Nat.mod_lt _ hC)
  refine ⟨fun k hk => hIR _ _ (hrowlt k hk) (hcollt k hk), ?_⟩
  intro k1 k2 h12 hk2
  have hk1 : k1 < g.boxRows * g.boxCols := by omega
  by_cases h0 : g.get (m * g.boxRows + k1 / g.boxCols)
      (m2 * g.boxCols + k1 % g.boxCols) = 0
  · exact Or.inl h0
  · refine Or.inr (Or.inr ?_)
    apply hBox _ _ _ _ (hrowlt k1 hk1) (hcollt k1 hk1) (hrowlt k2 hk2)
      (hcollt k2 hk2) ?_ ?_ h0
    · exact ⟨by rw [band_div _ _ (hoffR k1 hk1), band_div _ _ (hoffR k2 hk2)],
        by rw [band_div _ _ (Nat.mod_lt _ hC), band_div _ _ (Nat.mod_lt _ hC)]⟩
    · intro heq
      have hrr : m * g.boxRows + k1 / g.boxCols = m * g.boxRows + k2 / g.boxCols ∧
          m2 * g.boxCols + k1 % g.boxCols = m2 * g.boxCols + k2 % g.boxCols := by
        constructor
        · exact congrArg Prod.fst heq
        · exact congrArg Prod.snd heq
      have hdiv12 : k1 / g.boxCols = k2 / g.boxCols := by omega
      have hmod12 : k1 % g.boxCols = k2 % g.boxCols := by
        have := hrr.2
        omega
      have e1 := Nat.div_add_mod k1 g.boxCols
      have e2 := Nat.div_add_mod k2 g.boxCols
      rw [hdiv12, hmod12] at e1
      omega

/-- `Validate` (`grid.go`) succeeds exactly on declaratively valid grids. -/
theorem validateB_iff_validD {g : Grid} (hWF : g.WF) :
    g.validateB = true ↔ g.ValidD := by
  have hWF2 := hWF
  simp only [validateB, Bool.and_eq_true, List.all_eq_true, List.mem_range]
  constructor
  · intro ⟨hrc, hbox⟩
    have hbox2 : ∀ br ∈ boxStarts g.size g.boxRows,
        ∀ bc ∈ boxStarts g.size g.boxCols,
          scanDups g.size (g.boxVals br bc) = true := by
      intro br hbr bc hbc
      exact (hbox br hbr) bc hbc
    refine ⟨?_, ?_, ?_, ?_⟩
    · intro r c hr hc
      have hscan := (hrc r hr).1
      rw [rowVals_eq, scanDups_map_range_iff] at hscan
      exact hscan.1 c hc
    · intro r c1 c2 hr h1 h2 hne hnz
      have hscan := (hrc r hr).1
      rw [rowVals_eq, scanDups_map_range_iff] at hscan
      rcases Nat.lt_or_ge c1 c2 with hlt | hge
      · exact (hscan.2 c1 c2 hlt h2).ne_of_left hnz
      · have hlt2 : c2 < c1 := by omega
        exact ((hscan.2 c2 c1 hlt2 h1).symm).ne_of_left hnz
    · intro c r1 r2 hc h1 h2 hne hnz
      have hscan := (hrc c hc).2
      rw [colVals_eq, scanDups_map_range_iff] at hscan
      rcases Nat.lt_or_ge r1 r2 with hlt | hge
      · exact (hscan.2 r1 r2 hlt h2).ne_of_left hnz
      · have hlt2 : r2 < r1 := by omega
        exact ((hscan.2 r2 r1 hlt2 h1).symm).ne_of_left hnz
    · intro r1 c1 r2 c2 h1 h2 h3 h4 hsb hne hnz
      exact (boxScan_forward hWF2 hbox2 r1 c1 r2 c2 h1 h2 h3 h4 hsb hne).ne_of_left hnz
  · intro ⟨hIR, hRow, hCol, hBox⟩
    refine ⟨?_, ?_⟩
    · intro i hi
      constructor
      · rw [rowVals_eq, scanDups_map_range_iff]
        refine ⟨fun c hc => hIR i c hi hc, ?_⟩
        intro c1 c2 hlt h2
        by_cases h0 : g.get i c1 = 0
        · exact Or.inl h0
        · exact Or.inr (Or.inr (hRow i c1 c2 hi (by omega) h2 (by omega) h0))
      · rw [colVals_eq, scanDups_map_range_iff]
        refine ⟨fun r hr => hIR r i hr hi, ?_⟩
        intro r1 r2 hlt h2
        by_cases h0 : g.get r1 i = 0
        · exact Or.inl h0
        · exact Or.inr (Or.inr (hCol i r1 r2 hi (by omega) h2 (by omega) h0))
    · intro br hbr bc hbc
      exact boxScan_backward hWF2 hIR hBox br hbr bc hbc

end Grid

/-- Abstract interface to the shared random source `globalRand`
(`math/rand/v2`, `sudoku.go`): `shuffle` models `rand.Shuffle` applied to
a list of values and `perm` models `rand.Perm`; both return the advanced
generator state. -/
structure Rng (σ : Type) where
  shuffle : List Nat → σ → List Nat × σ
  perm : Nat → σ → List Nat × σ

/-- What Go guarantees of the random source: a shuffle permutes its
input, and `Perm n` returns a permutation of `0..n-1`. -/
def Rng.WF {σ : Type} (R : Rng σ) : Prop :=
  (∀ l s, ((R.shuffle l s).1).Perm l) ∧
  (∀ n s, ((R.perm n s).1).Perm (List.range n))

/-- The candidate loop of `backtrack` (`grid.go`): try each value of
`vals` in order at the empty cell `(r, c)`; a safe value is placed and
`step` (the recursive `backtrack`) runs on the result; the first success
is returned and a failed branch moves on to the next value (in Go the
cell is reset to `0` on failure, which the pure embedding realises by
reusing the unmodified `w`). -/
def tryList {σ : Type} (step : Grid → σ → Option Grid × σ)
    (w : Grid) (r c : Nat) : List Nat → σ → Option Grid × σ
  | [], s => (none, s)
  | v :: vs, s =>
    if w.isSafe r c v then
      match step (w.setCell r c v) s with
      | (some g, s1) => (some g, s1)
      | (none, s1) => tryList step w r c vs s1
    else tryList step w r c vs s

/-- `backtrack` of `grid.go`, with explicit fuel: find the first empty
cell in row-major order; if none, the grid is solved; otherwise shuffle
`[1..size]` and try the candidates in the shuffled order. -/
def btAux {σ : Type} (R : Rng σ) : Nat → Grid → σ → Option Grid × σ
  | 0, _, s => (none, s)
  | fuel + 1, w, s =>
    match w.findEmpty with
    | none => (some w, s)
    | some (r, c) =>
      let p := R.shuffle (valsList w.size) s
      tryList (btAux R fuel) w r c p.1 p.2

/-- `Solve` of `grid.go`: backtrack on a copy of the grid (`Clone` is the
identity on immutable values).  The fuel `size*size + 1` strictly bounds
the recursion depth: every recursive call fills one of the at most
`size*size` empty cells. -/
def Grid.solve {σ : Type} (R : Rng σ) (g : Grid) (s : σ) :
    Option Grid × σ :=
  btAux R (g.size * g.size + 1) g s

/-- On a grid with no empty cell, `backtrack` immediately reports success
without reading the random source, and `Solve` returns the grid itself. -/
theorem Grid.solve_of_full {σ : Type} (R : Rng σ) {g : Grid}
    (h : Grid.Full g) (s : σ) : g.solve R s = (some g, s) := by
  rw [Grid.solve, btAux, Grid.findEmpty_eq_none_of_full h]

/-- A degenerate random source whose shuffles are the identity; used to
instantiate theorems at concrete inputs. -/
def idRng : Rng Unit where
  shuffle := fun l s => (l, s)
  perm := fun n s => (List.range n, s)

theorem idRng_wf : idRng.WF :=
  ⟨fun l _ => List.Perm.refl l, fun _ _ => List.Perm.refl _⟩

/-- A random source that reverses its input; a second concrete instance. -/
def revRng : Rng Unit where
  shuffle := fun l s => (l.reverse, s)
  perm := fun n s => ((List.range n).reverse, s)

theorem revRng_wf : revRng.WF :=
  ⟨fun l _ => l.reverse_perm, fun n _ => (List.range n).reverse_perm⟩

theorem sameBox_decomp {w : Grid} (hR : 0 < w.boxRows) (hC : 0 < w.boxCols)
    {r c r2 c2 : Nat} (h : w.SameBox r c r2 c2) :
    ∃ i j, i < w.boxRows ∧ j < w.boxCols ∧
      r2 = r / w.boxRows * w.boxRows + i ∧
      c2 = c / w.boxCols * w.boxCols + j := by
  obtain ⟨h1, h2⟩ := h
  refine ⟨r2 % w.boxRows, c2 % w.boxCols, Nat.mod_lt _ hR, Nat.mod_lt _ hC,
    ?_, ?_⟩
  · rw [h1]
    exact (Grid.divmul_add_mod r2 _).symm
  · rw [h2]
    exact (Grid.divmul_add_mod c2 _).symm

/-- Placing a safe value `v ∈ [1, size]` in an empty cell of a valid grid
keeps the grid valid. -/
theorem validD_setCell {w : Grid} (hWF : w.WF) (hV : w.ValidD) {r c v : Nat}
    (hr : r < w.size) (hc : c < w.size) (hempty : w.get r c = 0)
    (hsafe : w.isSafe r c v = true) (hv2 : v ≤ w.size) :
    (w.setCell r c v).ValidD := by
  obtain ⟨hrowcol, hbox⟩ := Grid.isSafe_iff.mp hsafe
  obtain ⟨hIR, hRow, hCol, hBox⟩ := hV
  have hself : (w.setCell r c v).get r c = v := Grid.get_setCell_self hWF hr hc v
  have hother : ∀ r0 c0, (r0, c0) ≠ (r, c) →
      (w.setCell r c v).get r0 c0 = w.get r0 c0 := by
    intro r0 c0 hne
    apply Grid.get_setCell_ne
    by_cases h : r = r0
    · subst h
      right
      intro h
      exact hne (by rw [h])
    · exact Or.inl h
  have hRpos : 0 < w.boxRows := hWF.2.2.2.1
  have hCpos : 0 < w.boxCols := hWF.2.2.2.2
  refine ⟨?_, ?_, ?_, ?_⟩
  · -- range
    intro r0 c0 h0 h1
    by_cases h : (r0, c0) = (r, c)
    · obtain ⟨rfl, rfl⟩ := Prod.mk.injEq .. ▸ h
      rw [hself]
      exact hv2
    · rw [hother r0 c0 h]
      exact hIR r0 c0 h0 h1
  · -- rows
    intro r0 c1 c2 h0 h1 h2 hne hnz0
    by_cases ha : (r0, c1) = (r, c)
    · obtain ⟨rfl, rfl⟩ := Prod.mk.injEq .. ▸ ha
      rw [hself]
      have hb : (r0, c2) ≠ (r0, c1) := by
        intro h
        exact hne (congrArg Prod.snd h).symm
      rw [hother r0 c2 hb]
      exact Ne.symm ((hrowcol c2 h2).1)
    · rw [hother r0 c1 ha]
      rw [hother r0 c1 ha] at hnz0
      by_cases hb : (r0, c2) = (r, c)
      · obtain ⟨rfl, rfl⟩ := Prod.mk.injEq .. ▸ hb
        rw [hself]
        exact (hrowcol c1 h1).1
      · rw [hother r0 c2 hb]
        exact hRow r0 c1 c2 h0 h1 h2 hne hnz0
  · -- columns
    intro c0 r1 r2 h0 h1 h2 hne hnz0
    by_cases ha : (r1, c0) = (r, c)
    · obtain ⟨rfl, rfl⟩ := Prod.mk.injEq .. ▸ ha
      rw [hself]
      have hb : (r2, c0) ≠ (r1, c0) := by
        intro h
        exact hne (congrArg Prod.fst h).symm
      rw [hother r2 c0 hb]
      exact Ne.symm ((hrowcol r2 h2).2)
    · rw [hother r1 c0 ha]
      rw [hother r1 c0 ha] at hnz0
      by_cases hb : (r2, c0) = (r, c)
      · obtain ⟨rfl, rfl⟩ := Prod.mk.injEq .. ▸ hb
        rw [hself]
        exact (hrowcol r1 h1).2
      · rw [hother r2 c0 hb]
        exact hCol c0 r1 r2 h0 h1 h2 hne hnz0
  · -- boxes
    intro r1 c1 r2 c2 h1 h2 h3 h4 hsb hne hnz0
    have hsb' : w.SameBox r1 c1 r2 c2 := hsb
    by_cases ha : (r1, c1) = (r, c)
    · obtain ⟨rfl, rfl⟩ := Prod.mk.injEq .. ▸ ha
      rw [hself]
      rw [hother r2 c2 (fun h => hne h.symm)]
      obtain ⟨i, j, hi, hj, hri, hcj⟩ := sameBox_decomp hRpos hCpos hsb'
      rw [hri, hcj]
      exact Ne.symm (hbox i j hi hj)
    · rw [hother r1 c1 ha]
      rw [hother r1 c1 ha] at hnz0
      by_cases hb : (r2, c2) = (r, c)
      · obtain ⟨rfl, rfl⟩ := Prod.mk.injEq .. ▸ hb
        rw [hself]
        have hsb2 : w.SameBox r2 c2 r1 c1 := ⟨hsb'.1.symm, hsb'.2.symm⟩
        obtain ⟨i, j, hi, hj, hri, hcj⟩ := sameBox_decomp hRpos hCpos hsb2
        rw [hri, hcj]
        exact hbox i j hi hj
      · rw [hother r2 c2 hb]
        exact hBox r1 c1 r2 c2 h1 h2 h3 h4 hsb' hne hnz0

/-- Inversion of the candidate loop: a success comes from some safe value
of the list whose recursive call succeeded (from some intermediate random
state). -/
theorem tryList_eq_some {σ : Type} {step : Grid → σ → Option Grid × σ}
    {w : Grid} {r c : Nat} :
    ∀ {vs : List Nat} {s s1 : σ} {g1 : Grid},
    tryList step w r c vs s = (some g1, s1) →
    ∃ v ∈ vs, w.isSafe r c v = true ∧
      ∃ s0, step (w.setCell r c v) s0 = (some g1, s1) := by
  intro vs
  induction vs with
  | nil =>
    intro s s1 g1 h
    simp [tryList] at h
  | cons v vs ih =>
    intro s s1 g1 h
    rw [tryList] at h
    by_cases hsafe : w.isSafe r c v
    · rw [if_pos hsafe] at h
      rcases hstep : step (w.setCell r c v) s with ⟨og, s2⟩
      rw [hstep] at h
      cases og with
      | some gg =>
        simp only [Prod.mk.injEq, Option.some.injEq] at h
        obtain ⟨rfl, rfl⟩ := h
        exact ⟨v, List.mem_cons_self v vs, hsafe, s, hstep⟩
      | none =>
        obtain ⟨v2, hv2, hsafe2, s0, hs0⟩ := ih h
        exact ⟨v2, List.mem_cons_of_mem _ hv2, hsafe2, s0, hs0⟩
    · rw [if_neg hsafe] at h
      obtain ⟨v2, hv2, hsafe2, s0, hs0⟩ := ih h
      exact ⟨v2, List.mem_cons_of_mem _ hv2, hsafe2, s0, hs0⟩

/-- Soundness of `backtrack`: from a well-formed valid grid, any returned
grid is well-formed, valid, extends the input and has no empty cell. -/
theorem btAux_sound {σ : Type} {R : Rng σ} (hR : R.WF) :
    ∀ (fuel : Nat) (w : Grid) (s : σ) (g1 : Grid) (s1 : σ),
    w.WF → w.ValidD → btAux R fuel w s = (some g1, s1) →
    g1.size = w.size ∧ g1.boxRows = w.boxRows ∧ g1.boxCols = w.boxCols ∧
    g1.WF ∧ g1.ValidD ∧ Grid.Extends g1 w ∧ Grid.Full g1 := by
  intro fuel
  induction fuel with
  | zero =>
    intro w s g1 s1 _ _ h
    simp [btAux] at h
  | succ fuel ih =>
    intro w s g1 s1 hWF hV h
    rw [btAux] at h
    rcases hfe : w.findEmpty with - | rc
    · rw [hfe] at h
      simp only [Prod.mk.injEq, Option.some.injEq] at h
      obtain ⟨rfl, rfl⟩ := h
      exact ⟨rfl, rfl, rfl, hWF, hV, Grid.Extends.refl w,
        Grid.findEmpty_eq_none_iff.mp hfe⟩
    · rcases rc with ⟨r, c⟩
      rw [hfe] at h
      obtain ⟨hr, hc, hempty⟩ := Grid.findEmpty_eq_some hfe
      obtain ⟨v, hv, hsafe, s0, hs0⟩ := tryList_eq_some h
      have hvmem : v ∈ valsList w.size :=
        ((hR.1 (valsList w.size) s).mem_iff).mp hv
      obtain ⟨hv1, hv2⟩ := mem_valsList.mp hvmem
      have hWF2 : (w.setCell r c v).WF := hWF.setCell r c v
      have hV2 : (w.setCell r c v).ValidD :=
        validD_setCell hWF hV hr hc hempty hsafe hv2
      obtain ⟨hsz, hbr, hbc, hWF3, hV3, hExt, hFull⟩ :=
        ih (w.setCell r c v) s0 g1 s1 hWF2 hV2 hs0
      refine ⟨hsz, hbr, hbc, hWF3, hV3, ?_, hFull⟩
      intro r0 c0 h0 h1 hnz0
      have hne : (r0, c0) ≠ (r, c) := by
        intro heq
        obtain ⟨rfl, rfl⟩ := Prod.mk.injEq .. ▸ heq
        exact hnz0 hempty
      have hcomp : r ≠ r0 ∨ c ≠ c0 := by
        by_cases hrr : r = r0
        · subst hrr
          right
          intro hcc
          exact hne (by rw [hcc])
        · exact Or.inl hrr
      have hset : (w.setCell r c v).get r0 c0 = w.get r0 c0 :=
        Grid.get_setCell_ne w v hcomp
      have := hExt r0 c0 (by simpa using h0) (by simpa using h1)
        (by rw [hset]; exact hnz0)
      rw [hset] at this
      exact this

/-- `HintGrid` of `grid.go`: validate, solve, then return the first empty
cell (row-major order, the same scan as `findEmpty`) together with its
value in the solution; `(0,0,0,false)` when validation or solving fails
or no empty cell exists. -/
def Grid.hintGrid {σ : Type} (R : Rng σ) (g : Grid) (s : σ) :
    (Nat × Nat × Nat × Bool) × σ :=
  if g.validateB then
    match g.solve R s with
    | (some sol, s1) =>
      match g.findEmpty with
      | some (r, c) => ((r, c, sol.get r c, true), s1)
      | none => ((0, 0, 0, false), s1)
    | (none, s1) => ((0, 0, 0, false), s1)
  else ((0, 0, 0, false), s)

/-- A 2×2 puzzle (boxes 1×2) with one solved row; used as concrete input. -/
def g22pC1 : Grid :=
  { size := 2, boxRows := 1, boxCols := 2, cells := [[1, 2], [0, 0]] }

/-- Its unique completion. -/
def g22solC1 : Grid :=
  { size := 2, boxRows := 1, boxCols := 2, cells := [[1, 2], [2, 1]] }

/-- The all-ones classic 9×9 grid: full but violating every rule. -/
def allOnes9 : Grid :=
  { size := 9, boxRows := 3, boxCols := 3,
    cells := List.replicate 9 (List.replicate 9 1) }

/-- **C1** (amended: the input grid must itself pass `Validate`; `Solve`
performs no validation, so on an already-full invalid grid it reports
success with an invalid result — see the counterexample and C9).  For
every well-formed grid `g` passing `Validate`, whenever `Solve` returns a
grid with ok = true, that grid passes `Validate`, agrees with `g` on every
originally non-zero cell, and has no empty cell. -/
theorem C1_solve_sound {σ : Type} (R : Rng σ) (hR : R.WF) (g : Grid)
    (s : σ) (g1 : Grid) (s1 : σ) (hWF : g.WF)
    (hvalid : g.validateB = true)
    (hsolve : g.solve R s = (some g1, s1)) :
    g1.validateB = true ∧
    (∀ r c, r < g.size → c < g.size → g.get r c ≠ 0 →
      g1.get r c = g.get r c) ∧
    (∀ r c, r < g.size → c < g.size → g1.get r c ≠ 0) := by
  have hV := (Grid.validateB_iff_validD hWF).mp hvalid
  obtain ⟨hsz, hbr, hbc, hWF1, hV1, hExt, hFull⟩ :=
    btAux_sound hR _ g s g1 s1 hWF hV hsolve
  refine ⟨(Grid.validateB_iff_validD hWF1).mpr hV1, hExt, ?_⟩
  intro r c hr hc
  exact hFull r c (by omega) (by omega)

/-- **C1** counterexample: on the full but invalid all-ones grid, `Solve`
returns the grid itself with ok = true, yet the result fails `Validate`;
so the claim without a validity precondition is false. -/
theorem C1_counterexample :
    allOnes9.solve idRng () = (some allOnes9, ()) ∧
    allOnes9.validateB = false := by
  constructor
  · rfl
  · rfl

/-- **C1** witness: the amended theorem applied to a concrete valid 2×2
puzzle. -/
theorem C1_witness :
    g22solC1.validateB = true ∧
    (∀ r c, r < g22pC1.size → c < g22pC1.size → g22pC1.get r c ≠ 0 →
      g22solC1.get r c = g22pC1.get r c) ∧
    (∀ r c, r < g22pC1.size → c < g22pC1.size → g22solC1.get r c ≠ 0) :=
  C1_solve_sound idRng idRng_wf g22pC1 () g22solC1 ()
    (by decide) (by decide) (by decide)

/-- Solvability within a given recursion depth.  This predicate mentions
no candidate order: it quantifies over the unshuffled `[1..size]`, so it
is the order-independent meaning of one `backtrack` call. -/
def CanSolve : Nat → Grid → Prop
  | 0, _ => False
  | fuel + 1, w =>
    match w.findEmpty with
    | none => True
    | some (r, c) =>
      ∃ v ∈ valsList w.size, w.isSafe r c v = true ∧
        CanSolve fuel (w.setCell r c v)

theorem tryList_isSome_of {σ : Type} {step : Grid → σ → Option Grid × σ}
    {Q : Grid → Prop} {w : Grid} {r c : Nat}
    (hstep : ∀ u s, ((step u s).1.isSome = true ↔ Q u)) :
    ∀ (vs : List Nat) (s : σ) (v : Nat), v ∈ vs →
    w.isSafe r c v = true → Q (w.setCell r c v) →
    (tryList step w r c vs s).1.isSome = true := by
  intro vs
  induction vs with
  | nil =>
    intro s v hv
    simp at hv
  | cons u vs ih =>
    intro s v hv hsafe hQ
    rw [tryList]
    rcases List.mem_cons.mp hv with rfl | hv
    · rw [if_pos hsafe]
      rcases hstep0 : step (w.setCell r c v) s with ⟨og, s2⟩
      cases og with
      | some gg => simp
      | none =>
        have := (hstep (w.setCell r c v) s).mpr hQ
        rw [hstep0] at this
        simp at this
    · by_cases hsafeu : w.isSafe r c u
      · rw [if_pos hsafeu]
        rcases hstep0 : step (w.setCell r c u) s with ⟨og, s2⟩
        cases og with
        | some gg => simp
        | none => exact ih s2 v hv hsafe hQ
      · rw [if_neg hsafeu]
        exact ih s v hv hsafe hQ

theorem tryList_isSome_iff {σ : Type} {step : Grid → σ → Option Grid × σ}
    {Q : Grid → Prop} {w : Grid} {r c : Nat}
    (hstep : ∀ u s, ((step u s).1.isSome = true ↔ Q u))
    (vs : List Nat) (s : σ) :
    (tryList step w r c vs s).1.isSome = true ↔
      ∃ v ∈ vs, w.isSafe r c v = true ∧ Q (w.setCell r c v) := by
  constructor
  · intro h
    rcases htl : tryList step w r c vs s with ⟨og, s2⟩
    rw [htl] at h
    cases og with
    | none => simp at h
    | some g1 =>
      obtain ⟨v, hv, hsafe, s0, hs0⟩ := tryList_eq_some htl
      refine ⟨v, hv, hsafe, ?_⟩
      have := hstep (w.setCell r c v) s0
      rw [hs0] at this
      simpa using this.mp
  · intro ⟨v, hv, hsafe, hQ⟩
    exact tryList_isSome_of hstep vs s v hv hsafe hQ

/-- Success of `backtrack` depends only on the grid and the fuel, not on
the state of the random source: it is equivalent to `CanSolve`. -/
theorem btAux_isSome_iff {σ : Type} {R : Rng σ} (hR : R.WF) :
    ∀ (fuel : Nat) (w : Grid) (s : σ),
    ((btAux R fuel w s).1.isSome = true ↔ CanSolve fuel w) := by
  intro fuel
  induction fuel with
  | zero =>
    intro w s
    simp [btAux, CanSolve]
  | succ fuel ih =>
    intro w s
    rw [btAux, CanSolve]
    rcases hfe : w.findEmpty with - | ⟨r, c⟩
    · simp
    · simp only []
      rw [tryList_isSome_iff (fun u s0 => ih u s0)]
      constructor
      · intro ⟨v, hv, hrest⟩
        exact ⟨v, ((hR.1 (valsList w.size) s).mem_iff).mp hv, hrest⟩
      · intro ⟨v, hv, hrest⟩
        exact ⟨v, ((hR.1 (valsList w.size) s).mem_iff).mpr hv, hrest⟩

/-- A random source over state `Bool` whose two states shuffle
differently: state `true` reverses, state `false` leaves order unchanged. -/
def mixRng : Rng Bool where
  shuffle := fun l s => (if s then l.reverse else l, s)
  perm := fun n s => (if s then (List.range n).reverse else List.range n, s)

theorem mixRng_wf : mixRng.WF := by
  constructor
  · intro l s
    cases s
    · exact List.Perm.refl l
    · exact l.reverse_perm
  · intro n s
    cases s
    · exact List.Perm.refl _
    · exact (List.range n).reverse_perm

/-- An empty 2×2 grid (boxes 1×2). -/
def empty22C5 : Grid :=
  { size := 2, boxRows := 1, boxCols := 2, cells := [[0, 0], [0, 0]] }

/-- **C5**: whether `Solve` succeeds does not depend on the state of the
random source used to shuffle the candidate order: for any two states,
the two runs return the same ok flag.  (The randomized order changes only
which completion is found.) -/
theorem C5_solve_success_independent {σ : Type} (R : Rng σ) (hR : R.WF)
    (g : Grid) (s1 s2 : σ) :
    (g.solve R s1).1.isSome = (g.solve R s2).1.isSome := by
  rw [Bool.eq_iff_iff, Grid.solve, Grid.solve,
    btAux_isSome_iff hR, btAux_isSome_iff hR]

/-- **C5** witness: the two states of `mixRng` shuffle in opposite orders,
yet `Solve` reports the same ok flag on the empty 2×2 grid. -/
theorem C5_witness :
    (empty22C5.solve mixRng true).1.isSome =
      (empty22C5.solve mixRng false).1.isSome :=
  C5_solve_success_independent mixRng mixRng_wf empty22C5 true false

/-- The inner candidate loop of the `dfs` closure in `hasUniqueSolution`
(`grid.go`): candidates are tried in ascending order; after a recursive
call, a returned `true` (count reached the limit) short-circuits the
loop, and the updated count is threaded on otherwise. -/
def dfsTry (step : Grid → Nat → Nat × Bool) (w : Grid)
    (r c : Nat) : List Nat → Nat → Nat × Bool
  | [], cnt => (cnt, false)
  | v :: vs, cnt =>
    if w.isSafe r c v then
      match step (w.setCell r c v) cnt with
      | (cnt1, true) => (cnt1, true)
      | (cnt1, false) => dfsTry step w r c vs cnt1
    else dfsTry step w r c vs cnt

/-- The `dfs` closure of `hasUniqueSolution` (`grid.go`), with explicit
fuel: it returns the updated solution count together with the early-exit
flag `count >= limit`; at a full assignment the count is incremented. -/
def dfsCnt (limit : Nat) : Nat → Grid → Nat → Nat × Bool
  | 0, _, cnt => (cnt, false)
  | fuel + 1, w, cnt =>
    match w.findEmpty with
    | none => (cnt + 1, decide (limit ≤ cnt + 1))
    | some (r, c) =>
      dfsTry (dfsCnt limit fuel) w r c (valsList w.size) cnt

/-- `hasUniqueSolution` of `grid.go` (the receiver carries the same
dimensions as the argument grid, so a single grid suffices): run the
counting dfs from count 0 on a copy and test that the final count is
exactly 1. -/
def Grid.hasUniqueSolution (w : Grid) (limit : Nat) : Bool :=
  (dfsCnt limit (w.size * w.size + 1) w 0).1 == 1

/-- Specification device (not in the source): the list of full
assignments the exhaustive search reaches, in search order. -/
def solList : Nat → Grid → List Grid
  | 0, _ => []
  | fuel + 1, w =>
    match w.findEmpty with
    | none => [w]
    | some (r, c) =>
      (valsList w.size).flatMap fun v =>
        if w.isSafe r c v then solList fuel (w.setCell r c v) else []

/-- The candidate loop computes `min (cnt + number of reached solutions)
limit`, with the early-exit flag set exactly when the limit is reached. -/
theorem dfsTry_eq {limit : Nat} {step : Grid → Nat → Nat × Bool}
    {F : Grid → List Grid} {w : Grid} {r c : Nat}
    (hstep : ∀ u cnt, cnt < limit → step u cnt =
      (min (cnt + (F u).length) limit,
       decide (limit ≤ cnt + (F u).length))) :
    ∀ (vs : List Nat) (cnt : Nat), cnt < limit →
    dfsTry step w r c vs cnt =
      (min (cnt + ((vs.flatMap fun v =>
          if w.isSafe r c v then F (w.setCell r c v) else []).length)) limit,
       decide (limit ≤ cnt + ((vs.flatMap fun v =>
          if w.isSafe r c v then F (w.setCell r c v) else []).length))) := by
  intro vs
  induction vs with
  | nil =>
    intro cnt hcnt
    simp only [dfsTry, List.flatMap_nil, List.length_nil, Nat.add_zero,
      Prod.mk.injEq]
    constructor
    · omega
    · rw [eq_comm, decide_eq_false_iff_not]
      omega
  | cons v vs ih =>
    intro cnt hcnt
    rw [dfsTry, List.flatMap_cons, List.length_append]
    by_cases hsafe : w.isSafe r c v
    · rw [if_pos hsafe, if_pos hsafe, hstep _ _ hcnt]
      by_cases hfull : limit ≤ cnt + (F (w.setCell r c v)).length
      · rw [decide_eq_true hfull]
        simp only [Prod.mk.injEq]
        constructor
        · omega
        · rw [eq_comm, decide_eq_true_iff]
          omega
      · rw [decide_eq_false hfull]
        have hmin : min (cnt + (F (w.setCell r c v)).length) limit =
            cnt + (F (w.setCell r c v)).length := by omega
        rw [hmin]
        show dfsTry step w r c vs (cnt + (F (w.setCell r c v)).length) = _
        rw [ih _ (by omega)]
        simp only [Nat.add_assoc]
    · rw [if_neg hsafe, if_neg hsafe, ih _ hcnt]
      simp

/-- The counting dfs computes `min (cnt + number of solutions) limit`. -/
theorem dfsCnt_eq {limit : Nat} :
    ∀ (fuel : Nat) (w : Grid) (cnt : Nat), cnt < limit →
    dfsCnt limit fuel w cnt =
      (min (cnt + (solList fuel w).length) limit,
       decide (limit ≤ cnt + (solList fuel w).length)) := by
  intro fuel
  induction fuel with
  | zero =>
    intro w cnt hcnt
    simp only [dfsCnt, solList, List.length_nil, Nat.add_zero, Prod.mk.injEq]
    constructor
    · omega
    · rw [eq_comm, decide_eq_false_iff_not]
      omega
  | succ fuel ih =>
    intro w cnt hcnt
    rw [dfsCnt, solList]
    rcases hfe : w.findEmpty with - | ⟨r, c⟩
    · simp only [List.length_cons, List.length_nil, Nat.zero_add,
        Prod.mk.injEq]
      exact ⟨(min_eq_left (by omega)).symm, trivial⟩
    · exact dfsTry_eq (fun u cnt0 h0 => ih u cnt0 h0) (valsList w.size) cnt hcnt

theorem countP_lt_of_flip {α : Type} {l : List α} (hnd : l.Nodup)
    {p q : α → Bool} {x : α} (hx : x ∈ l)
    (hpq : ∀ y ∈ l, y ≠ x → q y = p y) (hpx : p x = true)
    (hqx : q x = false) :
    l.countP q < l.countP p := by
  induction l with
  | nil => simp at hx
  | cons a l ih =>
    rw [List.countP_cons, List.countP_cons]
    rcases List.mem_cons.mp hx with hax | hx2
    · have hnotin : a ∉ l := (List.nodup_cons.mp hnd).1
      have heq : l.countP q = l.countP p := by
        apply List.countP_congr
        intro y hy
        have hne : y ≠ x := by
          intro h
          rw [h, hax] at hy
          exact hnotin hy
        rw [hpq y (List.mem_cons_of_mem _ hy) hne]
      rw [hax] at hpx hqx
      rw [hpx, hqx, heq]
      simp
    · have ha : a ≠ x := by
        intro h
        exact (List.nodup_cons.mp hnd).1 (h ▸ hx2)
      have hqa : q a = p a := hpq a (List.mem_cons_self a l) ha
      have hlt := ih (List.nodup_cons.mp hnd).2 hx2
        (fun y hy hne => hpq y (List.mem_cons_of_mem _ hy) hne)
      rw [hqa]
      cases hpa : p a
      · simp only [Bool.false_eq_true, if_false]
        omega
      · simp only [if_true]
        omega

/-- Filling an empty in-range cell with a non-zero value strictly
decreases the number of empty cells. -/
theorem countEmpty_setCell_lt {w : Grid} (hWF : w.WF) {r c v : Nat}
    (hr : r < w.size) (hc : c < w.size) (hempty : w.get r c = 0)
    (hv : v ≠ 0) :
    (w.setCell r c v).countEmpty < w.countEmpty := by
  rw [Grid.countEmpty, Grid.countEmpty]
  simp only [Grid.setCell_size]
  rw [← List.countP_eq_length_filter, ← List.countP_eq_length_filter]
  apply countP_lt_of_flip
    ((List.nodup_range w.size).product (List.nodup_range w.size))
    (List.pair_mem_product.mpr ⟨List.mem_range.mpr hr, List.mem_range.mpr hc⟩)
  · intro y _ hy
    have hcomp : r ≠ y.1 ∨ c ≠ y.2 := by
      by_cases h1 : r = y.1
      · right
        intro h2
        exact hy (by cases y; simp only at h1 h2; rw [← h1, ← h2])
      · exact Or.inl h1
    simp only [Grid.get_setCell_ne w v hcomp]
  · simpa using hempty
  · simp [Grid.get_setCell_self hWF hr hc v, hv]

/-- A complete legal assignment extending `w`: same dimensions, well
formed, every originally non-zero cell of `w` kept, every cell filled,
and the whole grid valid. -/
def Grid.IsSolutionOf (w1 w : Grid) : Prop :=
  w1.size = w.size ∧ w1.boxRows = w.boxRows ∧ w1.boxCols = w.boxCols ∧
  w1.WF ∧ Grid.Extends w1 w ∧ Grid.Full w1 ∧ w1.ValidD

/-- Extending past a placement at an originally empty cell still extends
the original grid. -/
theorem extends_setCell_elim {w w1 : Grid} {r c v : Nat}
    (hempty : w.get r c = 0)
    (hExt : Grid.Extends w1 (w.setCell r c v)) : Grid.Extends w1 w := by
  intro r0 c0 h0 h1 hnz0
  have hcomp : r ≠ r0 ∨ c ≠ c0 := by
    by_cases h : r = r0
    · subst h
      right
      intro hcc
      subst hcc
      exact hnz0 hempty
    · exact Or.inl h
  have hset := Grid.get_setCell_ne w v hcomp
  have := hExt r0 c0 (by simpa using h0) (by simpa using h1)
    (by rw [hset]; exact hnz0)
  rw [hset] at this
  exact this

theorem solList_mem_extends : ∀ (fuel : Nat) {w w1 : Grid}, w.WF →
    w1 ∈ solList fuel w → Grid.Extends w1 w ∧ w1.size = w.size := by
  intro fuel
  induction fuel with
  | zero =>
    intro w w1 _ h
    simp [solList] at h
  | succ fuel ih =>
    intro w w1 hWF h
    rw [solList] at h
    rcases hfe : w.findEmpty with - | ⟨r, c⟩
    · rw [hfe] at h
      simp only [List.mem_singleton] at h
      subst h
      exact ⟨Grid.Extends.refl _, rfl⟩
    · rw [hfe] at h
      simp only [List.mem_flatMap] at h
      obtain ⟨v, _hv, hmem⟩ := h
      by_cases hsafe : w.isSafe r c v
      · rw [if_pos hsafe] at hmem
        obtain ⟨-, -, hempty⟩ := Grid.findEmpty_eq_some hfe
        obtain ⟨hExt, hsz⟩ := ih (hWF.setCell r c v) hmem
        exact ⟨extends_setCell_elim hempty hExt, by simpa using hsz⟩
      · rw [if_neg hsafe] at hmem
        simp at hmem

/-- Every member of the `v` branch holds `v` at the branching cell. -/
theorem solList_mem_get {fuel : Nat} {w w1 : Grid} (hWF : w.WF)
    {r c : Nat} (hr : r < w.size) (hc : c < w.size) {v : Nat} (hv : v ≠ 0)
    (hmem : w1 ∈ solList fuel (w.setCell r c v)) : w1.get r c = v := by
  have hExt := (solList_mem_extends fuel (hWF.setCell r c v) hmem).1
  have hself : (w.setCell r c v).get r c = v :=
    Grid.get_setCell_self hWF hr hc v
  have := hExt r c (by simpa using hr) (by simpa using hc)
    (by rw [hself]; exact hv)
  rw [hself] at this
  exact this

theorem solList_nodup : ∀ (fuel : Nat) (w : Grid), w.WF →
    (solList fuel w).Nodup := by
  intro fuel
  induction fuel with
  | zero =>
    intro w _
    simp [solList]
  | succ fuel ih =>
    intro w hWF
    rw [solList]
    rcases hfe : w.findEmpty with - | ⟨r, c⟩
    · simp
    · obtain ⟨hr, hc, -⟩ := Grid.findEmpty_eq_some hfe
      rw [List.nodup_flatMap]
      constructor
      · intro v _hv
        by_cases hsafe : w.isSafe r c v
        · rw [if_pos hsafe]
          exact ih _ (hWF.setCell r c v)
        · rw [if_neg hsafe]
          exact List.nodup_nil
      · have hnd := nodup_valsList w.size
        refine List.Pairwise.imp_of_mem ?_ hnd
        intro v1 v2 h1 h2 hne
        intro w1 hw1 hw2
        have hw1a : w1 ∈ (if w.isSafe r c v1 = true
            then solList fuel (w.setCell r c v1) else []) := hw1
        have hw2a : w1 ∈ (if w.isSafe r c v2 = true
            then solList fuel (w.setCell r c v2) else []) := hw2
        clear hw1 hw2
        by_cases hs1 : w.isSafe r c v1
        case neg =>
          rw [if_neg hs1] at hw1a
          simp at hw1a
        rw [if_pos hs1] at hw1a
        by_cases hs2 : w.isSafe r c v2
        case neg =>
          rw [if_neg hs2] at hw2a
          simp at hw2a
        rw [if_pos hs2] at hw2a
        have hv1 : v1 ≠ 0 := by
          have := mem_valsList.mp h1
          omega
        have hv2 : v2 ≠ 0 := by
          have := mem_valsList.mp h2
          omega
        have e1 := solList_mem_get hWF hr hc hv1 hw1a
        have e2 := solList_mem_get hWF hr hc hv2 hw2a
        exact hne (e1.symm.trans e2)

/-- If the grid is valid and `w1` is a solution, the value `w1` holds at
an empty cell of `w` is safe to place there. -/
theorem isSafe_of_solution {w w1 : Grid} (hWF : w.WF)
    (hsol : w1.IsSolutionOf w) {r c : Nat}
    (hr : r < w.size) (hc : c < w.size) (hempty : w.get r c = 0) :
    w.isSafe r c (w1.get r c) = true := by
  obtain ⟨hsz, hbr, hbc, hWF1, hExt, hFull, hV1⟩ := hsol
  have hb0 : w1.get r c ≠ 0 := hFull r c (by omega) (by omega)
  obtain ⟨-, -, hdim, hRpos, hCpos⟩ := hWF
  have hdvdR : w.boxRows ∣ w.size := ⟨w.boxCols, hdim⟩
  have hdvdC : w.boxCols ∣ w.size := ⟨w.boxRows, by rw [hdim, Nat.mul_comm]⟩
  rw [Grid.isSafe_iff]
  constructor
  · intro i hi
    constructor
    · by_cases h0 : w.get r i = 0
      · rw [h0]
        exact fun h => hb0 h.symm
      · have hei : w.get r i = w1.get r i := (hExt r i hr hi h0).symm
        rw [hei]
        by_cases hic : i = c
        · subst hic
          exact absurd hempty h0
        · have := hV1.2.1 r c i (by omega) (by omega) (by omega)
            (fun h => hic h.symm) hb0
          exact fun h => this h.symm
    · by_cases h0 : w.get i c = 0
      · rw [h0]
        exact fun h => hb0 h.symm
      · have hei : w.get i c = w1.get i c := (hExt i c hi hc h0).symm
        rw [hei]
        by_cases hir : i = r
        · subst hir
          exact absurd hempty h0
        · have := hV1.2.2.1 c r i (by omega) (by omega) (by omega)
            (fun h => hir h.symm) hb0
          exact fun h => this h.symm
  · intro i j hi hj
    have hr2 : r / w.boxRows * w.boxRows + i < w.size :=
      Grid.band_lt hdvdR (Nat.div_lt_div_of_lt_of_dvd hdvdR hr) hi
    have hc2 : c / w.boxCols * w.boxCols + j < w.size :=
      Grid.band_lt hdvdC (Nat.div_lt_div_of_lt_of_dvd hdvdC hc) hj
    by_cases h0 : w.get (r / w.boxRows * w.boxRows + i)
        (c / w.boxCols * w.boxCols + j) = 0
    · rw [h0]
      exact fun h => hb0 h.symm
    · have hei := (hExt _ _ hr2 hc2 h0).symm
      rw [hei]
      by_cases heqp : (r / w.boxRows * w.boxRows + i,
          c / w.boxCols * w.boxCols + j) = (r, c)
      · exfalso
        have h1 := congrArg Prod.fst heqp
        have h2 := congrArg Prod.snd heqp
        simp only at h1 h2
        rw [h1, h2] at h0
        exact h0 hempty
      · have hsame : w1.SameBox r c (r / w.boxRows * w.boxRows + i)
            (c / w.boxCols * w.boxCols + j) := by
          refine ⟨?_, ?_⟩
          · rw [hbr]
            exact (Grid.band_div (r / w.boxRows) i hi).symm
          · rw [hbc]
            exact (Grid.band_div (c / w.boxCols) j hj).symm
        have := hV1.2.2.2 r c _ _ (by omega) (by omega) (by omega) (by omega)
          hsame (fun h => heqp h.symm) hb0
        exact fun h => this h.symm

/-- Membership in the reached-solution list coincides with being a
complete legal assignment, for a well-formed valid grid and enough fuel. -/
theorem mem_solList_iff : ∀ (fuel : Nat) {w w1 : Grid}, w.WF → w.ValidD →
    w.countEmpty < fuel → (w1 ∈ solList fuel w ↔ w1.IsSolutionOf w) := by
  intro fuel
  induction fuel with
  | zero =>
    intro w w1 _ _ hf
    omega
  | succ fuel ih =>
    intro w w1 hWF hV hfuel
    rw [solList]
    rcases hfe : w.findEmpty with - | ⟨r, c⟩
    · have hFullw : Grid.Full w := Grid.findEmpty_eq_none_iff.mp hfe
      simp only [List.mem_singleton]
      constructor
      · intro h
        subst h
        exact ⟨rfl, rfl, rfl, hWF, Grid.Extends.refl _, hFullw, hV⟩
      · intro hsol
        obtain ⟨hsz, hbr, hbc, hWF1, hExt, hFull1, hV1⟩ := hsol
        apply Grid.ext_of_pointwise hWF1 hWF hsz hbr hbc
        intro r0 c0 h0 h1
        exact hExt r0 c0 (by omega) (by omega)
          (hFullw r0 c0 (by omega) (by omega))
    · obtain ⟨hr, hc, hempty⟩ := Grid.findEmpty_eq_some hfe
      simp only [List.mem_flatMap]
      constructor
      · intro ⟨v, hvmem, hmem⟩
        by_cases hsafe : w.isSafe r c v
        case neg =>
          rw [if_neg hsafe] at hmem
          simp at hmem
        rw [if_pos hsafe] at hmem
        obtain ⟨hv1, hv2⟩ := mem_valsList.mp hvmem
        have hWF2 := hWF.setCell r c v
        have hV2 := validD_setCell hWF hV hr hc hempty hsafe hv2
        have hfuel2 : (w.setCell r c v).countEmpty < fuel := by
          have hlt := countEmpty_setCell_lt (v := v) hWF hr hc hempty
            (by omega)
          omega
        have hsol2 := (ih hWF2 hV2 hfuel2).mp hmem
        obtain ⟨hsz, hbr, hbc, hWF1, hExt, hFull1, hV1⟩ := hsol2
        exact ⟨by simpa using hsz, by simpa using hbr, by simpa using hbc,
          hWF1, extends_setCell_elim hempty hExt, hFull1, hV1⟩
      · intro hsol
        obtain ⟨hsz, hbr, hbc, hWF1, hExt, hFull1, hV1⟩ := hsol
        have hb0 : w1.get r c ≠ 0 := hFull1 r c (by omega) (by omega)
        have hble : w1.get r c ≤ w.size := by
          have := hV1.1 r c (by omega) (by omega)
          omega
        have hsafe := isSafe_of_solution hWF
          ⟨hsz, hbr, hbc, hWF1, hExt, hFull1, hV1⟩ hr hc hempty
        refine ⟨w1.get r c, mem_valsList.mpr ⟨by omega, hble⟩, ?_⟩
        rw [if_pos hsafe]
        have hWF2 := hWF.setCell r c (w1.get r c)
        have hV2 := validD_setCell hWF hV hr hc hempty hsafe hble
        have hfuel2 : (w.setCell r c (w1.get r c)).countEmpty < fuel := by
          have hlt := countEmpty_setCell_lt hWF hr hc hempty hb0
          omega
        rw [ih hWF2 hV2 hfuel2]
        refine ⟨by simpa using hsz, by simpa using hbr, by simpa using hbc,
          hWF1, ?_, hFull1, hV1⟩
        intro r0 c0 h0 h1 hnz0
        by_cases heqp : (r0, c0) = (r, c)
        · obtain ⟨rfl, rfl⟩ := Prod.mk.injEq .. ▸ heqp
          rw [Grid.get_setCell_self hWF hr hc]
        · have hcomp : r ≠ r0 ∨ c ≠ c0 := by
            by_cases h : r = r0
            · subst h
              right
              intro hcc
              exact heqp (by rw [hcc])
            · exact Or.inl h
          rw [Grid.get_setCell_ne w _ hcomp] at hnz0 ⊢
          exact hExt r0 c0 (by simpa using h0) (by simpa using h1) hnz0

/-- On a well-formed grid passing `Validate`, the uniqueness check with
limit 2 answers exactly the question "is there a unique complete legal
assignment". -/
theorem hasUnique_iff_aux (g : Grid) (hWF : g.WF)
    (hvalid : g.validateB = true) :
    g.hasUniqueSolution 2 = true ↔ ∃! w1, Grid.IsSolutionOf w1 g := by
  have hV := (Grid.validateB_iff_validD hWF).mp hvalid
  have hfuel : g.countEmpty < g.size * g.size + 1 :=
    Nat.lt_succ_of_le (Grid.countEmpty_le g)
  have hcnt := @dfsCnt_eq 2 (g.size * g.size + 1) g 0 (by omega)
  rw [Grid.hasUniqueSolution, hcnt]
  simp only [Nat.zero_add, beq_iff_eq]
  have hmem : ∀ w1 : Grid, w1 ∈ solList (g.size * g.size + 1) g ↔
      Grid.IsSolutionOf w1 g :=
    fun w1 => mem_solList_iff (g.size * g.size + 1) hWF hV hfuel
  have hnd : (solList (g.size * g.size + 1) g).Nodup :=
    solList_nodup (g.size * g.size + 1) g hWF
  constructor
  · intro h
    have hL : (solList (g.size * g.size + 1) g).length = 1 := by omega
    obtain ⟨a, ha⟩ := List.length_eq_one.mp hL
    refine ⟨a, (hmem a).mp (by rw [ha]; exact List.mem_singleton_self a), ?_⟩
    intro y hy
    have hmy : y ∈ solList (g.size * g.size + 1) g := (hmem y).mpr hy
    rw [ha] at hmy
    simpa using hmy
  · intro ⟨a, ha, huniq⟩
    have hamem : a ∈ solList (g.size * g.size + 1) g := (hmem a).mpr ha
    have hsub : ∀ y ∈ solList (g.size * g.size + 1) g, y = a :=
      fun y hy => huniq y ((hmem y).mp hy)
    have hL : (solList (g.size * g.size + 1) g).length = 1 := by
      rcases hlist : solList (g.size * g.size + 1) g with - | ⟨b, l⟩
      · rw [hlist] at hamem
        simp at hamem
      · rcases l with - | ⟨b2, l2⟩
        · rfl
        · exfalso
          rw [hlist] at hnd hsub
          have hb : b = a := hsub b (List.mem_cons_self b _)
          have hb2 : b2 = a := hsub b2
            (List.mem_cons_of_mem _ (List.mem_cons_self b2 _))
          have : b ∉ b2 :: l2 := (List.nodup_cons.mp hnd).1
          exact this (by rw [hb, ← hb2]; exact List.mem_cons_self b2 _)
    omega

/-- **C3** (amended: the grid must pass `Validate`; on an invalid grid the
counting search can report one "solution" although no legal completion
exists — see the counterexample).  For every well-formed grid `g` passing
`Validate`, `hasUniqueSolution(g, 2)` returns true iff `g` admits exactly
one complete legal assignment.  The search counts every full assignment
reached (backtracking after each), short-circuits when the count reaches
the limit 2, returns the test `count == 1`, and uses the same `isSafe`
predicate (same box-tiling formula) as the solver — in this embedding the
very same function `isSafe`. -/
theorem C3_hasUnique_iff (g : Grid) (hWF : g.WF)
    (hvalid : g.validateB = true) :
    g.hasUniqueSolution 2 = true ↔ ∃! w1, Grid.IsSolutionOf w1 g :=
  hasUnique_iff_aux g hWF hvalid

/-- The all-ones 4×4 grid: full and invalid. -/
def allOnes4C3 : Grid :=
  { size := 4, boxRows := 2, boxCols := 2,
    cells := List.replicate 4 (List.replicate 4 1) }

/-- **C3** counterexample: the all-ones grid is full, so the counting
search finds the one full assignment (the grid itself) and reports a
unique solution, yet the grid admits no complete legal assignment at all
(it already violates the row rule), refuting the claim without a
validity precondition. -/
theorem C3_counterexample :
    allOnes4C3.hasUniqueSolution 2 = true ∧
    ¬ ∃! w1, Grid.IsSolutionOf w1 allOnes4C3 := by
  constructor
  · rfl
  · rintro ⟨w1, hsol, -⟩
    obtain ⟨hsz, -, -, -, hExt, -, hV1⟩ := hsol
    have h00 : w1.get 0 0 = 1 := hExt 0 0 (by decide) (by decide) (by decide)
    have h01 : w1.get 0 1 = 1 := hExt 0 1 (by decide) (by decide) (by decide)
    have hlt : (0 : Nat) < w1.size := by
      rw [hsz]
      decide
    have hlt2 : (1 : Nat) < w1.size := by
      rw [hsz]
      decide
    have := hV1.2.1 0 0 1 hlt hlt hlt2 (by omega) (by rw [h00]; omega)
    rw [h00, h01] at this
    exact this rfl

/-- A valid 2×2 puzzle with a unique completion. -/
def g22pC3 : Grid :=
  { size := 2, boxRows := 1, boxCols := 2, cells := [[1, 2], [0, 0]] }

/-- **C3** witness: the amended equivalence applied to a concrete valid
2×2 puzzle. -/
theorem C3_witness :
    g22pC3.WF ∧ g22pC3.validateB = true ∧
    (g22pC3.hasUniqueSolution 2 = true ↔
      ∃! w1, Grid.IsSolutionOf w1 g22pC3) :=
  ⟨by decide, by decide, C3_hasUnique_iff g22pC3 (by decide) (by decide)⟩

/-- `NewGrid` of `grid.go` in its success case: the all-empty grid of the
given dimensions. -/
def emptyGrid (size boxRows boxCols : Nat) : Grid :=
  { size := size, boxRows := boxRows, boxCols := boxCols,
    cells := List.replicate size (List.replicate size 0) }

theorem emptyGrid_WF {size boxRows boxCols : Nat} (h : size = boxRows * boxCols)
    (hbR : 0 < boxRows) (hbC : 0 < boxCols) :
    (emptyGrid size boxRows boxCols).WF := by
  refine ⟨by simp [emptyGrid], ?_, h, hbR, hbC⟩
  intro row hrow
  simp only [emptyGrid] at hrow
  rw [List.eq_of_mem_replicate hrow]
  simp [emptyGrid]

theorem emptyGrid_get (size boxRows boxCols r c : Nat) :
    (emptyGrid size boxRows boxCols).get r c = 0 := by
  simp only [Grid.get, emptyGrid, List.getD_eq_getElem?_getD,
    List.getElem?_replicate]
  rcases Nat.lt_or_ge r size with hr | hr
  · rw [if_pos hr]
    simp only [Option.getD_some, List.getElem?_replicate]
    rcases Nat.lt_or_ge c size with hc | hc
    · rw [if_pos hc]
      rfl
    · rw [if_neg (by omega)]
      rfl
  · rw [if_neg (by omega)]
    rfl

/-- A sequence of cell writes applied in order (used to reason about the
decoding loop and box filling). -/
def applyWrites (g : Grid) (ws : List (Nat × Nat × Nat)) : Grid :=
  ws.foldl (fun a wr => a.setCell wr.1 wr.2.1 wr.2.2) g

@[simp] theorem applyWrites_nil (g : Grid) : applyWrites g [] = g := rfl

theorem applyWrites_cons (g : Grid) (wr : Nat × Nat × Nat)
    (ws : List (Nat × Nat × Nat)) :
    applyWrites g (wr :: ws) = applyWrites (g.setCell wr.1 wr.2.1 wr.2.2) ws :=
  rfl

theorem applyWrites_append (g : Grid) (ws1 ws2 : List (Nat × Nat × Nat)) :
    applyWrites g (ws1 ++ ws2) = applyWrites (applyWrites g ws1) ws2 := by
  simp [applyWrites]

theorem applyWrites_size : ∀ (ws : List (Nat × Nat × Nat)) (g : Grid),
    (applyWrites g ws).size = g.size := by
  intro ws
  induction ws with
  | nil => intro g; rfl
  | cons wr ws ih =>
    intro g
    rw [applyWrites_cons, ih]
    rfl

theorem applyWrites_boxRows : ∀ (ws : List (Nat × Nat × Nat)) (g : Grid),
    (applyWrites g ws).boxRows = g.boxRows := by
  intro ws
  induction ws with
  | nil => intro g; rfl
  | cons wr ws ih =>
    intro g
    rw [applyWrites_cons, ih]
    rfl

theorem applyWrites_boxCols : ∀ (ws : List (Nat × Nat × Nat)) (g : Grid),
    (applyWrites g ws).boxCols = g.boxCols := by
  intro ws
  induction ws with
  | nil => intro g; rfl
  | cons wr ws ih =>
    intro g
    rw [applyWrites_cons, ih]
    rfl

theorem applyWrites_WF : ∀ (ws : List (Nat × Nat × Nat)) (g : Grid),
    g.WF → (applyWrites g ws).WF := by
  intro ws
  induction ws with
  | nil => intro g h; exact h
  | cons wr ws ih =>
    intro g h
    rw [applyWrites_cons]
    exact ih _ (h.setCell _ _ _)

theorem get_applyWrites_notin :
    ∀ (ws : List (Nat × Nat × Nat)) (g : Grid) {r c : Nat},
    (∀ wr ∈ ws, ¬(wr.1 = r ∧ wr.2.1 = c)) →
    (applyWrites g ws).get r c = g.get r c := by
  intro ws
  induction ws with
  | nil => intro g r c _; rfl
  | cons wr ws ih =>
    intro g r c h
    rw [applyWrites_cons, ih _ (fun w hw => h w (List.mem_cons_of_mem _ hw))]
    apply Grid.get_setCell_ne
    have := h wr (List.mem_cons_self wr ws)
    by_cases h1 : wr.1 = r
    · right
      intro h2
      exact this ⟨h1, h2⟩
    · exact Or.inl h1

/-- The digit character for value `v ≤ 9`: `byte('0'+v)` in `String()`. -/
def digitChar (v : Nat) : Char := Char.ofNat ('0'.toNat + v)

/-- `String()` of `grid.go`: one character per cell in row-major order,
`'0'` for empty cells; strings are modelled as lists of characters. -/
def Grid.toStr (g : Grid) : List Char :=
  (List.range (g.size * g.size)).map fun i =>
    if g.get (i / g.size) (i % g.size) = 0 then '0'
    else digitChar (g.get (i / g.size) (i % g.size))

/-- The decoding switch of `FromStringN` (`grid.go`): digits `'1'..'9'`
map to their value when it does not exceed `size`; `'0'` and `'.'` map to
the empty cell; any other character is an error. -/
def decodeChar (size : Nat) (ch : Char) : Option Nat :=
  if '1' ≤ ch ∧ ch ≤ '9' then
    (if size < ch.toNat - '0'.toNat then none
     else some (ch.toNat - '0'.toNat))
  else if ch = '0' ∨ ch = '.' then some 0
  else none

/-- One iteration of the decoding loop of `FromStringN`, filling cell
`(i / size, i % size)`; `none` models the error returns. -/
def pstep (s : List Char) (size : Nat) (acc : Option Grid) (i : Nat) :
    Option Grid :=
  match acc with
  | none => none
  | some g =>
    match decodeChar size (s.getD i ' ') with
    | none => none
    | some v => some (g.setCell (i / size) (i % size) v)

/-- The decoding loop of `FromStringN` over all `size*size` characters. -/
def parseCells (s : List Char) (size boxRows boxCols : Nat) : Option Grid :=
  (List.range (size * size)).foldl (pstep s size)
    (some (emptyGrid size boxRows boxCols))

/-- `FromStringN` of `grid.go`: dimension check, length check, character
decoding, then `Validate`. -/
def fromStringN (s : List Char) (size boxRows boxCols : Nat) : Option Grid :=
  if size ≠ boxRows * boxCols then none
  else if s.length ≠ size * size then none
  else
    match parseCells s size boxRows boxCols with
    | none => none
    | some g => if g.validateB then some g else none

theorem foldParse_none (s : List Char) (size : Nat) :
    ∀ l : List Nat, l.foldl (pstep s size) none = none := by
  intro l
  induction l with
  | nil => rfl
  | cons i l ih => simpa [pstep] using ih

/-- When every character decodes, the loop is the corresponding write
sequence. -/
theorem foldParse_ok (s : List Char) (size : Nat) :
    ∀ (l : List Nat) (g : Grid),
    (∀ i ∈ l, (decodeChar size (s.getD i ' ')).isSome = true) →
    l.foldl (pstep s size) (some g) =
      some (applyWrites g (l.map fun i =>
        (i / size, i % size, (decodeChar size (s.getD i ' ')).getD 0))) := by
  intro l
  induction l with
  | nil => intro g _; rfl
  | cons i l ih =>
    intro g h
    have hi := h i (List.mem_cons_self i l)
    rcases hdec : decodeChar size (s.getD i ' ') with - | v
    · rw [hdec] at hi
      simp at hi
    · rw [List.foldl_cons, List.map_cons,
        show pstep s size (some g) i =
          some (g.setCell (i / size) (i % size) v) by
            simp only [pstep]
            rw [hdec],
        applyWrites_cons]
      rw [ih _ (fun j hj => h j (List.mem_cons_of_mem _ hj))]
      rw [hdec]
      rfl

/-- If some character fails to decode, the loop fails. -/
theorem foldParse_fail (s : List Char) (size : Nat) :
    ∀ (l : List Nat) (g : Grid) (i : Nat), i ∈ l →
    decodeChar size (s.getD i ' ') = none →
    l.foldl (pstep s size) (some g) = none := by
  intro l
  induction l with
  | nil =>
    intro g i hi
    simp at hi
  | cons j l ih =>
    intro g i hi hdec
    rw [List.foldl_cons]
    rcases List.mem_cons.mp hi with rfl | hi2
    · rw [show pstep s size (some g) i = none by
        simp only [pstep]
        rw [hdec]]
      exact foldParse_none s size l
    · rcases hstep : pstep s size (some g) j with - | g2
      · exact foldParse_none s size l
      · exact ih g2 i hi2 hdec

/-- Reading a cell after the row-major write sequence `i ↦ val i`. -/
theorem get_parse_writes {g0 : Grid} (hWF0 : g0.WF) (val : Nat → Nat)
    {r c : Nat} (hr : r < g0.size) (hc : c < g0.size) :
    ∀ m : Nat, (applyWrites g0 ((List.range m).map fun i =>
      (i / g0.size, i % g0.size, val i))).get r c =
      if r * g0.size + c < m then val (r * g0.size + c) else g0.get r c := by
  have hszpos : 0 < g0.size := by omega
  intro m
  induction m with
  | zero => simp
  | succ m ih =>
    rw [List.range_succ, List.map_append, applyWrites_append]
    simp only [List.map_cons, List.map_nil, applyWrites_cons, applyWrites_nil]
    by_cases hpos : m / g0.size = r ∧ m % g0.size = c
    · obtain ⟨h1, h2⟩ := hpos
      have hm : r * g0.size + c = m := by
        have hdm := Nat.div_add_mod m g0.size
        rw [h1, h2] at hdm
        have hcm : r * g0.size = g0.size * r := Nat.mul_comm _ _
        omega
      rw [h1, h2]
      rw [Grid.get_setCell_self (applyWrites_WF _ _ hWF0)
        (by rw [applyWrites_size]; exact hr)
        (by rw [applyWrites_size]; exact hc)]
      rw [if_pos (by omega), hm]
    · have hcomp : m / g0.size ≠ r ∨ m % g0.size ≠ c := by
        by_cases h1 : m / g0.size = r
        · right
          intro h2
          exact hpos ⟨h1, h2⟩
        · exact Or.inl h1
      rw [Grid.get_setCell_ne _ _ hcomp, ih]
      have hm : r * g0.size + c ≠ m := by
        intro heq
        apply hpos
        constructor
        · rw [← heq]
          exact (Grid.idx_div_mod hszpos r c hc).1
        · rw [← heq]
          exact (Grid.idx_div_mod hszpos r c hc).2
      by_cases hlt : r * g0.size + c < m
      · rw [if_pos hlt, if_pos (by omega)]
      · rw [if_neg hlt, if_neg (by omega)]

@[simp] theorem toStr_length (g : Grid) :
    g.toStr.length = g.size * g.size := by
  simp [Grid.toStr]

theorem toStr_getD {g : Grid} {i : Nat} (hi : i < g.size * g.size) :
    (g.toStr).getD i ' ' =
      (if g.get (i / g.size) (i % g.size) = 0 then '0'
       else digitChar (g.get (i / g.size) (i % g.size))) := by
  rw [Grid.toStr, List.getD_eq_getElem _ _ (by simpa using hi),
    List.getElem_map, List.getElem_range]

/-- A digit in `[0, min size 9]` decodes back to itself. -/
theorem decodeChar_encode {size v : Nat} (hv : v ≤ size) (h9 : v ≤ 9) :
    decodeChar size (if v = 0 then '0' else digitChar v) = some v := by
  interval_cases v <;> simp [decodeChar, digitChar] <;> omega

/-- **C4**: for every well-formed grid of size at most 9 that passes
`Validate`, parsing the formatted string with the grid's own dimensions
returns the grid itself. -/
theorem C4_roundtrip {g : Grid} (hWF : g.WF) (hvalid : g.validateB = true)
    (h9 : g.size ≤ 9) :
    fromStringN g.toStr g.size g.boxRows g.boxCols = some g := by
  have hdim : g.size = g.boxRows * g.boxCols := hWF.2.2.1
  have hbR : 0 < g.boxRows := hWF.2.2.2.1
  have hbC : 0 < g.boxCols := hWF.2.2.2.2
  have hszpos : 0 < g.size := by
    rw [hdim]
    exact Nat.mul_pos hbR hbC
  have hV := (Grid.validateB_iff_validD hWF).mp hvalid
  have hIR := hV.1
  have hE0 : (emptyGrid g.size g.boxRows g.boxCols).WF :=
    emptyGrid_WF hdim hbR hbC
  have hdecall : ∀ i ∈ List.range (g.size * g.size),
      (decodeChar g.size ((g.toStr).getD i ' ')).isSome = true := by
    intro i hi
    rw [List.mem_range] at hi
    have hposr : i / g.size < g.size := by
      rw [Nat.div_lt_iff_lt_mul hszpos]
      exact hi
    have hvle := hIR (i / g.size) (i % g.size) hposr (Nat.mod_lt _ hszpos)
    rw [toStr_getD hi, decodeChar_encode hvle (le_trans hvle h9)]
    rfl
  have hws : (List.range (g.size * g.size)).map (fun i =>
        (i / g.size, i % g.size,
          (decodeChar g.size ((g.toStr).getD i ' ')).getD 0)) =
      (List.range (g.size * g.size)).map (fun i =>
        (i / g.size, i % g.size, g.get (i / g.size) (i % g.size))) := by
    apply List.map_congr_left
    intro i hi
    rw [List.mem_range] at hi
    have hposr : i / g.size < g.size := by
      rw [Nat.div_lt_iff_lt_mul hszpos]
      exact hi
    have hvle := hIR (i / g.size) (i % g.size) hposr (Nat.mod_lt _ hszpos)
    rw [toStr_getD hi, decodeChar_encode hvle (le_trans hvle h9)]
    rfl
  have hpc2 : parseCells g.toStr g.size g.boxRows g.boxCols = some g := by
    rw [parseCells, foldParse_ok g.toStr g.size _ _ hdecall, hws]
    congr 1
    apply Grid.ext_of_pointwise (applyWrites_WF _ _ hE0) hWF
      (by rw [applyWrites_size]; rfl) (by rw [applyWrites_boxRows]; rfl)
      (by rw [applyWrites_boxCols]; rfl)
    intro r c hrg hcg
    have hrg2 : r < g.size := by
      rw [applyWrites_size] at hrg
      exact hrg
    have hcg2 : c < g.size := by
      rw [applyWrites_size] at hcg
      exact hcg
    have hesz : (emptyGrid g.size g.boxRows g.boxCols).size = g.size := rfl
    have := get_parse_writes hE0
      (fun i => g.get (i / g.size) (i % g.size)) (hesz.symm ▸ hrg2)
      (hesz.symm ▸ hcg2) (g.size * g.size)
    rw [hesz] at this
    rw [this, if_pos (Grid.idx_lt r c hrg2 hcg2)]
    rw [(Grid.idx_div_mod hszpos r c hcg2).1, (Grid.idx_div_mod hszpos r c hcg2).2]
  rw [fromStringN, if_neg (by simp [hdim]), if_neg (by simp), hpc2]
  show (if g.validateB = true then some g else none) = some g
  rw [if_pos hvalid]

/-- A valid 2×2 grid for the round-trip witness. -/
def gC4 : Grid :=
  { size := 2, boxRows := 1, boxCols := 2, cells := [[2, 1], [1, 2]] }

/-- **C4** witness: the round-trip theorem applied to a concrete valid
2×2 grid. -/
theorem C4_witness :
    fromStringN gC4.toStr gC4.size gC4.boxRows gC4.boxCols = some gC4 :=
  C4_roundtrip (by decide) (by decide) (by decide)

/-- Specification-side predicate: a character the codec accepts for the
given grid size (`'0'`, `'.'`, or a digit whose value is at most `size`). -/
def charOK (size : Nat) (ch : Char) : Prop :=
  ch = '0' ∨ ch = '.' ∨
    ('1' ≤ ch ∧ ch ≤ '9' ∧ ch.toNat - '0'.toNat ≤ size)

instance (size : Nat) (ch : Char) : Decidable (charOK size ch) := by
  unfold charOK
  infer_instance

/-- Specification-side value of one accepted character. -/
def decodeVal (ch : Char) : Nat :=
  if ch = '.' then 0 else ch.toNat - '0'.toNat

/-- The decoded row-major grid of a string (specification side). -/
def decodeG (s : List Char) (size boxRows boxCols : Nat) : Grid :=
  { size := size, boxRows := boxRows, boxCols := boxCols,
    cells := (List.range size).map fun r =>
      (List.range size).map fun c => decodeVal (s.getD (r * size + c) ' ') }

theorem decodeG_WF {s : List Char} {size boxRows boxCols : Nat}
    (h : size = boxRows * boxCols) (hbR : 0 < boxRows) (hbC : 0 < boxCols) :
    (decodeG s size boxRows boxCols).WF := by
  refine ⟨by simp [decodeG], ?_, h, hbR, hbC⟩
  intro row hrow
  simp only [decodeG, List.mem_map] at hrow
  obtain ⟨r, -, rfl⟩ := hrow
  simp [decodeG]

theorem decodeG_get {s : List Char} {size boxRows boxCols r c : Nat}
    (hr : r < size) (hc : c < size) :
    (decodeG s size boxRows boxCols).get r c =
      decodeVal (s.getD (r * size + c) ' ') := by
  have hrow : (decodeG s size boxRows boxCols).cells.getD r [] =
      (List.range size).map fun c2 => decodeVal (s.getD (r * size + c2) ' ') := by
    rw [List.getD_eq_getElem _ _ (by simpa [decodeG] using hr)]
    simp [decodeG]
  simp only [Grid.get]
  rw [hrow, List.getD_eq_getElem _ _ (by simpa using hc)]
  simp

/-- A character decodes successfully exactly when it is acceptable. -/
theorem decodeChar_isSome_iff {size : Nat} {ch : Char} :
    (decodeChar size ch).isSome = true ↔ charOK size ch := by
  by_cases hd : '1' ≤ ch ∧ ch ≤ '9'
  · rw [decodeChar, if_pos hd]
    by_cases hv : size < ch.toNat - '0'.toNat
    · rw [if_pos hv]
      simp only [Option.isSome_none, Bool.false_eq_true, false_iff]
      intro h
      rcases h with h | h | h
      · subst h
        exact absurd hd.1 (by decide)
      · subst h
        exact absurd hd.1 (by decide)
      · omega
    · rw [if_neg hv]
      simp only [Option.isSome_some, true_iff]
      exact Or.inr (Or.inr ⟨hd.1, hd.2, by omega⟩)
  · rw [decodeChar, if_neg hd]
    by_cases h0 : ch = '0' ∨ ch = '.'
    · rw [if_pos h0]
      simp only [Option.isSome_some, true_iff]
      rcases h0 with h | h
      · exact Or.inl h
      · exact Or.inr (Or.inl h)
    · rw [if_neg h0]
      simp only [Option.isSome_none, Bool.false_eq_true, false_iff]
      intro h
      rcases h with h | h | h
      · exact h0 (Or.inl h)
      · exact h0 (Or.inr h)
      · exact hd ⟨h.1, h.2.1⟩

/-- An accepted character decodes to its specification value. -/
theorem decodeChar_eq_decodeVal {size : Nat} {ch : Char}
    (h : charOK size ch) : decodeChar size ch = some (decodeVal ch) := by
  rcases h with h | h | h
  · subst h
    rw [decodeChar, if_neg (by decide), if_pos (Or.inl rfl)]
    rfl
  · subst h
    rw [decodeChar, if_neg (by decide), if_pos (Or.inr rfl)]
    rfl
  · rw [decodeChar, if_pos ⟨h.1, h.2.1⟩, if_neg (by omega)]
    have hdot : ch ≠ '.' := by
      intro heq
      subst heq
      exact absurd h.1 (by decide)
    rw [decodeVal, if_neg hdot]

theorem mem_of_getD {s : List Char} {i : Nat} (hi : i < s.length) :
    s.getD i ' ' ∈ s := by
  rw [List.getD_eq_getElem _ _ hi]
  exact List.getElem_mem hi

/-- **C7** (amended: the dimensions must satisfy `size = boxRows*boxCols`
with `1 ≤ size ≤ 25`, the domain `NewGrid` accepts — `FromStringN`
rejects inconsistent dimensions before looking at the string, and above
`MaxGridSize` the Go code would panic on a nil cell matrix).  Parsing
succeeds iff the string has exactly `size*size` characters, every
character is `'0'`, `'.'` or a digit of value at most `size`, and the
decoded row-major grid passes the Validator. -/
theorem C7_parse_iff (s : List Char) (size bR bC : Nat)
    (hdims : size = bR * bC) (h1 : 1 ≤ size) (_h25 : size ≤ 25) :
    (∃ g, fromStringN s size bR bC = some g) ↔
      (s.length = size * size ∧ (∀ ch ∈ s, charOK size ch) ∧
       (decodeG s size bR bC).validateB = true) := by
  have hbR : 0 < bR := by
    rcases Nat.eq_zero_or_pos bR with h | h
    · rw [h, Nat.zero_mul] at hdims
      omega
    · exact h
  have hbC : 0 < bC := by
    rcases Nat.eq_zero_or_pos bC with h | h
    · rw [h, Nat.mul_zero] at hdims
      omega
    · exact h
  have hE0 : (emptyGrid size bR bC).WF := emptyGrid_WF hdims hbR hbC
  rw [fromStringN, if_neg (by simp [hdims])]
  by_cases hlen : s.length = size * size
  case neg =>
    rw [if_pos hlen]
    constructor
    · rintro ⟨g, hg⟩
      simp at hg
    · rintro ⟨h, -, -⟩
      exact absurd h hlen
  case pos =>
    rw [if_neg (not_not_intro hlen)]
    by_cases hchars : ∀ i ∈ List.range (size * size),
        (decodeChar size (s.getD i ' ')).isSome = true
    · have hOKidx : ∀ i, i < size * size → charOK size (s.getD i ' ') := by
        intro i hi
        exact decodeChar_isSome_iff.mp (hchars i (List.mem_range.mpr hi))
      have hpc : parseCells s size bR bC = some (decodeG s size bR bC) := by
        rw [parseCells, foldParse_ok s size _ _ hchars]
        congr 1
        have hwseq : (List.range (size * size)).map (fun i =>
            (i / size, i % size, (decodeChar size (s.getD i ' ')).getD 0)) =
            (List.range (size * size)).map (fun i =>
            (i / size, i % size, decodeVal (s.getD i ' '))) := by
          apply List.map_congr_left
          intro i hi
          rw [decodeChar_eq_decodeVal (hOKidx i (List.mem_range.mp hi))]
          rfl
        rw [hwseq]
        apply Grid.ext_of_pointwise (applyWrites_WF _ _ hE0)
          (decodeG_WF hdims hbR hbC) (by rw [applyWrites_size]; rfl)
          (by rw [applyWrites_boxRows]; rfl)
          (by rw [applyWrites_boxCols]; rfl)
        intro r c hrg hcg
        have hesz : (emptyGrid size bR bC).size = size := rfl
        have hrg2 : r < size := by
          rw [applyWrites_size] at hrg
          exact hrg
        have hcg2 : c < size := by
          rw [applyWrites_size] at hcg
          exact hcg
        have hthis := get_parse_writes hE0
          (fun i => decodeVal (s.getD i ' ')) (hesz.symm ▸ hrg2)
          (hesz.symm ▸ hcg2) (size * size)
        rw [hesz] at hthis
        rw [hthis, if_pos (Grid.idx_lt r c hrg2 hcg2),
          decodeG_get hrg2 hcg2]
      rw [hpc]
      by_cases hval : (decodeG s size bR bC).validateB = true
      · rw [show (match some (decodeG s size bR bC) with
            | none => none
            | some g => if g.validateB = true then some g else none) =
            some (decodeG s size bR bC) by
              show (if (decodeG s size bR bC).validateB = true
                then some (decodeG s size bR bC) else none) = _
              rw [if_pos hval]]
        constructor
        · intro h2
          refine ⟨hlen, ?_, hval⟩
          intro ch hch
          obtain ⟨i, hilt, hieq⟩ := List.mem_iff_getElem.mp hch
          have h2 : charOK size (s.getD i ' ') := by
            apply hOKidx
            rw [← hlen]
            exact hilt
          rw [List.getD_eq_getElem _ _ hilt] at h2
          rw [← hieq]
          exact h2
        · intro h2
          exact ⟨decodeG s size bR bC, rfl⟩
      · rw [show (match some (decodeG s size bR bC) with
            | none => none
            | some g => if g.validateB = true then some g else none) =
            (none : Option Grid) by
              show (if (decodeG s size bR bC).validateB = true
                then some (decodeG s size bR bC) else none) = _
              rw [if_neg hval]]
        constructor
        · rintro ⟨g, hg⟩
          simp at hg
        · rintro ⟨-, -, h⟩
          exact absurd h hval
    · push_neg at hchars
      obtain ⟨i, himem, hnone⟩ := hchars
      have hdec : decodeChar size (s.getD i ' ') = none := by
        rcases hd : decodeChar size (s.getD i ' ') with - | v
        · rfl
        · rw [hd] at hnone
          simp at hnone
      have hpcn : parseCells s size bR bC = none := by
        rw [parseCells]
        exact foldParse_fail s size _ _ i himem hdec
      rw [hpcn]
      constructor
      · rintro ⟨g, hg⟩
        simp at hg
      · rintro ⟨-, hOK, -⟩
        have hin : i < s.length := by
          rw [hlen]
          exact List.mem_range.mp himem
        have hok2 := hOK (s.getD i ' ') (mem_of_getD hin)
        rw [← decodeChar_isSome_iff, hdec] at hok2
        simp at hok2

/-- The 36-dot string used as counterexample input. -/
def dots36 : List Char := List.replicate 36 '.'

/-- **C7** counterexample: with dimensions `(6, 2, 2)` (where
`size ≠ boxRows*boxCols`) and a string of 36 dots, the string has the
right length, every character is acceptable and the decoded grid passes
the Validator, yet parsing fails — `FromStringN` rejects the dimensions
before looking at the string, which the original claim does not cover. -/
theorem C7_counterexample :
    fromStringN dots36 6 2 2 = none ∧
    dots36.length = 6 * 6 ∧ (∀ ch ∈ dots36, charOK 6 ch) ∧
    (decodeG dots36 6 2 2).validateB = true := by
  refine ⟨by decide, by decide, ?_, by decide⟩
  intro ch hch
  rw [List.eq_of_mem_replicate hch]
  exact Or.inr (Or.inl rfl)

/-- **C7** witness: the amended equivalence applied to concrete
dimensions `(4, 2, 2)` and the all-zeros 16-character string. -/
theorem C7_witness :
    (∃ g, fromStringN (List.replicate 16 '0') 4 2 2 = some g) ↔
      ((List.replicate 16 '0' : List Char).length = 4 * 4 ∧
       (∀ ch ∈ (List.replicate 16 '0' : List Char), charOK 4 ch) ∧
       (decodeG (List.replicate 16 '0') 4 2 2).validateB = true) :=
  C7_parse_iff (List.replicate 16 '0') 4 2 2 rfl (by decide) (by decide)

/-- `Difficulty` (`sudoku.go`): the three difficulty levels. -/
inductive Difficulty where
  | easy
  | medium
  | hard
deriving DecidableEq, Repr

/-- `cluesFor` of `grid.go`: classic clue counts (Easy 40, Medium 32,
Hard 26) for 9×9, scaled proportionally by cell count otherwise, never
below 8. -/
def Grid.cluesFor (g : Grid) (d : Difficulty) : Nat :=
  let base : Nat :=
    match d with
    | .easy => 40
    | .medium => 32
    | .hard => 26
  if g.size = 9 then base
  else max 8 (g.size * g.size * base / 81)

/-- `countClues` of `grid.go`: the number of non-zero cells. -/
def Grid.countClues (g : Grid) : Nat :=
  (((List.range g.size) ×ˢ (List.range g.size)).filter
    (fun p => !(g.get p.1 p.2 == 0))).length

/-- `fillBox` of `grid.go`: draw a permutation of `0..size-1` and place
`vals[idx] + 1` into the box with corner `(br, bc)`, the running counter
`idx` visiting the box cells in row-major order (`idx / boxCols`,
`idx % boxCols`). -/
def Grid.fillBox {σ : Type} (R : Rng σ) (g : Grid) (br bc : Nat) (s : σ) :
    Grid × σ :=
  let p := R.perm g.size s
  (applyWrites g ((List.range (g.boxRows * g.boxCols)).map fun idx =>
    (br + idx / g.boxCols, bc + idx % g.boxCols, p.1.getD idx 0 + 1)), p.2)

/-- `fillDiagonalBoxes` of `grid.go`: fill
`min (size/boxRows) (size/boxCols)` boxes along the diagonal of boxes. -/
def Grid.fillDiag {σ : Type} (R : Rng σ) (g : Grid) (s : σ) : Grid × σ :=
  (List.range (min (g.size / g.boxRows) (g.size / g.boxCols))).foldl
    (fun acc i => Grid.fillBox R acc.1 (i * g.boxRows) (i * g.boxCols) acc.2)
    (g, s)

/-- The removal loop of `Generate` (`grid.go`): for each index of the
random removal order, stop once the clue count has reached the target;
skip already-empty cells; tentatively clear a cell and keep the clearing
only if uniqueness (limit 2) still holds, restoring the old value
otherwise (in the pure embedding, restoring is reusing the unmodified
grid). -/
def carve (target : Nat) : List Nat → Grid → Grid
  | [], p => p
  | idx :: rest, p =>
    if p.countClues ≤ target then p
    else
      if p.get (idx / p.size) (idx % p.size) = 0 then carve target rest p
      else
        if (p.setCell (idx / p.size) (idx % p.size) 0).hasUniqueSolution 2
        then carve target rest (p.setCell (idx / p.size) (idx % p.size) 0)
        else carve target rest p

/-- The attempt loop of `Generate` (`grid.go`): per attempt, seed the
diagonal boxes, complete with `backtrack`, draw the removal order, carve,
and accept if the final puzzle still has a unique solution; otherwise
move to the next attempt with the advanced random state. -/
def genAttempts {σ : Type} (R : Rng σ) (g : Grid) (d : Difficulty) :
    Nat → σ → Option Grid × σ
  | 0, s => (none, s)
  | t + 1, s =>
    let seeded := Grid.fillDiag R g s
    match btAux R (g.size * g.size + 1) seeded.1 seeded.2 with
    | (none, s2) => genAttempts R g d t s2
    | (some solved, s2) =>
      let p := R.perm (g.size * g.size) s2
      let puzzle := carve (g.cluesFor d) p.1 solved
      if puzzle.hasUniqueSolution 2 then (some puzzle, p.2)
      else genAttempts R g d t p.2

/-- `Generate` of `grid.go`: `attempts < 1` is treated as 1. -/
def Grid.generate {σ : Type} (R : Rng σ) (g : Grid) (d : Difficulty)
    (attempts : Nat) (s : σ) : Option Grid × σ :=
  genAttempts R g d (max attempts 1) s

theorem get_setCell_ne_pair (g : Grid) {r c r0 c0 : Nat} (v : Nat)
    (h : (r0, c0) ≠ (r, c)) :
    (g.setCell r c v).get r0 c0 = g.get r0 c0 := by
  apply Grid.get_setCell_ne
  by_cases h1 : r = r0
  · right
    intro h2
    exact h (by rw [h1, h2])
  · exact Or.inl h1

/-- A non-zero read is always in range on a well-formed grid (out of
range reads default to 0). -/
theorem get_ne_zero_lt {g : Grid} (hWF : g.WF) {r c : Nat}
    (h : g.get r c ≠ 0) : r < g.size ∧ c < g.size := by
  obtain ⟨hlen, hrows, -, -, -⟩ := hWF
  by_cases hr : r < g.size
  · refine ⟨hr, ?_⟩
    by_contra hc
    apply h
    have hrl : r < g.cells.length := by omega
    rw [Grid.get, List.getD_eq_getElem _ _ hrl]
    have : g.cells[r].length = g.size := hrows _ (List.getElem_mem hrl)
    exact List.getD_eq_default _ _ (by omega)
  · exfalso
    apply h
    have h1 : g.cells.getD r [] = [] := List.getD_eq_default _ _ (by omega)
    rw [Grid.get, h1]
    rfl

/-- Clearing a cell of a valid grid keeps it valid. -/
theorem validD_clear {w : Grid} (hWF : w.WF) (hV : w.ValidD) {r c : Nat}
    (hr : r < w.size) (hc : c < w.size) : (w.setCell r c 0).ValidD := by
  obtain ⟨hIR, hRow, hCol, hBox⟩ := hV
  have hself : (w.setCell r c 0).get r c = 0 :=
    Grid.get_setCell_self hWF hr hc 0
  refine ⟨?_, ?_, ?_, ?_⟩
  · intro r0 c0 h0 h1
    by_cases h : (r0, c0) = (r, c)
    · obtain ⟨rfl, rfl⟩ := Prod.mk.injEq .. ▸ h
      rw [hself]
      omega
    · rw [get_setCell_ne_pair w 0 h]
      exact hIR r0 c0 h0 h1
  · intro r0 c1 c2 h0 h1 h2 hne hnz0
    by_cases ha : (r0, c1) = (r, c)
    · obtain ⟨rfl, rfl⟩ := Prod.mk.injEq .. ▸ ha
      rw [hself] at hnz0
      exact absurd rfl hnz0
    · rw [get_setCell_ne_pair w 0 ha] at hnz0 ⊢
      by_cases hb : (r0, c2) = (r, c)
      · obtain ⟨rfl, rfl⟩ := Prod.mk.injEq .. ▸ hb
        rw [hself]
        exact hnz0
      · rw [get_setCell_ne_pair w 0 hb]
        exact hRow r0 c1 c2 h0 h1 h2 hne hnz0
  · intro c0 r1 r2 h0 h1 h2 hne hnz0
    by_cases ha : (r1, c0) = (r, c)
    · obtain ⟨rfl, rfl⟩ := Prod.mk.injEq .. ▸ ha
      rw [hself] at hnz0
      exact absurd rfl hnz0
    · rw [get_setCell_ne_pair w 0 ha] at hnz0 ⊢
      by_cases hb : (r2, c0) = (r, c)
      · obtain ⟨rfl, rfl⟩ := Prod.mk.injEq .. ▸ hb
        rw [hself]
        exact hnz0
      · rw [get_setCell_ne_pair w 0 hb]
        exact hCol c0 r1 r2 h0 h1 h2 hne hnz0
  · intro r1 c1 r2 c2 h1 h2 h3 h4 hsb hne hnz0
    have hsb2 : w.SameBox r1 c1 r2 c2 := hsb
    by_cases ha : (r1, c1) = (r, c)
    · obtain ⟨rfl, rfl⟩ := Prod.mk.injEq .. ▸ ha
      rw [hself] at hnz0
      exact absurd rfl hnz0
    · rw [get_setCell_ne_pair w 0 ha] at hnz0 ⊢
      by_cases hb : (r2, c2) = (r, c)
      · obtain ⟨rfl, rfl⟩ := Prod.mk.injEq .. ▸ hb
        rw [hself]
        exact hnz0
      · rw [get_setCell_ne_pair w 0 hb]
        exact hBox r1 c1 r2 c2 h1 h2 h3 h4 hsb2 hne hnz0

/-- The carve loop preserves dimensions, well-formedness and validity. -/
theorem carve_props (target : Nat) :
    ∀ (l : List Nat) (p : Grid), p.WF → p.ValidD →
    (carve target l p).size = p.size ∧
    (carve target l p).boxRows = p.boxRows ∧
    (carve target l p).boxCols = p.boxCols ∧
    (carve target l p).WF ∧ (carve target l p).ValidD := by
  intro l
  induction l with
  | nil =>
    intro p hWF hV
    exact ⟨rfl, rfl, rfl, hWF, hV⟩
  | cons idx rest ih =>
    intro p hWF hV
    rw [carve]
    by_cases hstop : p.countClues ≤ target
    · rw [if_pos hstop]
      exact ⟨rfl, rfl, rfl, hWF, hV⟩
    · rw [if_neg hstop]
      by_cases hz : p.get (idx / p.size) (idx % p.size) = 0
      · rw [if_pos hz]
        exact ih p hWF hV
      · rw [if_neg hz]
        obtain ⟨hr, hc⟩ := get_ne_zero_lt hWF hz
        by_cases hu : (p.setCell (idx / p.size) (idx % p.size) 0).hasUniqueSolution 2 = true
        · rw [if_pos hu]
          obtain ⟨e1, e2, e3, e4, e5⟩ := ih
            (p.setCell (idx / p.size) (idx % p.size) 0)
            (hWF.setCell _ _ _) (validD_clear hWF hV hr hc)
          exact ⟨e1, e2, e3, e4, e5⟩
        · rw [if_neg hu]
          exact ih p hWF hV

/-- Reading a cell after the first `m` writes of one box fill. -/
theorem get_fillBox_writes {g0 : Grid} (hWF0 : g0.WF) (br bc : Nat)
    (vals : List Nat) (hbrle : br + g0.boxRows ≤ g0.size)
    (hbcle : bc + g0.boxCols ≤ g0.size) {r0 c0 : Nat} :
    ∀ m, m ≤ g0.boxRows * g0.boxCols →
    (applyWrites g0 ((List.range m).map fun idx =>
      (br + idx / g0.boxCols, bc + idx % g0.boxCols,
        vals.getD idx 0 + 1))).get r0 c0 =
      if br ≤ r0 ∧ r0 < br + g0.boxRows ∧ bc ≤ c0 ∧ c0 < bc + g0.boxCols ∧
          (r0 - br) * g0.boxCols + (c0 - bc) < m
      then vals.getD ((r0 - br) * g0.boxCols + (c0 - bc)) 0 + 1
      else g0.get r0 c0 := by
  have hC : 0 < g0.boxCols := hWF0.2.2.2.2
  intro m
  induction m with
  | zero =>
    intro _
    rw [if_neg (by omega)]
    rfl
  | succ m ih =>
    intro hm
    rw [List.range_succ, List.map_append, applyWrites_append]
    simp only [List.map_cons, List.map_nil, applyWrites_cons, applyWrites_nil]
    have hmlt : m < g0.boxRows * g0.boxCols := hm
    have hdivC : m / g0.boxCols < g0.boxRows := by
      rw [Nat.div_lt_iff_lt_mul hC]
      exact hmlt
    have hmodC : m % g0.boxCols < g0.boxCols := Nat.mod_lt _ hC
    have hdm := Nat.div_add_mod m g0.boxCols
    generalize hq : m / g0.boxCols = q at hdivC hdm ⊢
    generalize hs2 : m % g0.boxCols = s at hmodC hdm ⊢
    by_cases hpos : br + q = r0 ∧ bc + s = c0
    · obtain ⟨h1, h2⟩ := hpos
      rw [h1, h2]
      rw [Grid.get_setCell_self (applyWrites_WF _ _ hWF0)
        (by rw [applyWrites_size]; omega) (by rw [applyWrites_size]; omega)]
      have hidx : (r0 - br) * g0.boxCols + (c0 - bc) = m := by
        have hr0 : r0 - br = q := by omega
        have hc0 : c0 - bc = s := by omega
        rw [hr0, hc0, Nat.mul_comm q g0.boxCols]
        exact hdm
      rw [if_pos ⟨by omega, by omega, by omega, by omega, by omega⟩, hidx]
    · have hcomp : br + q ≠ r0 ∨ bc + s ≠ c0 := by
        by_cases h1 : br + q = r0
        · right
          intro h2
          exact hpos ⟨h1, h2⟩
        · exact Or.inl h1
      rw [Grid.get_setCell_ne _ _ hcomp, ih (by omega)]
      by_cases hin : br ≤ r0 ∧ r0 < br + g0.boxRows ∧ bc ≤ c0 ∧
          c0 < bc + g0.boxCols
      · have hidxne : (r0 - br) * g0.boxCols + (c0 - bc) ≠ m := by
          intro heq
          have hoff : c0 - bc < g0.boxCols := by omega
          have hd := (Grid.idx_div_mod hC (r0 - br) (c0 - bc) hoff).1
          have hm2 := (Grid.idx_div_mod hC (r0 - br) (c0 - bc) hoff).2
          rw [heq, hq] at hd
          rw [heq, hs2] at hm2
          exact hpos ⟨by omega, by omega⟩
        by_cases hlt : (r0 - br) * g0.boxCols + (c0 - bc) < m
        · rw [if_pos ⟨hin.1, hin.2.1, hin.2.2.1, hin.2.2.2, hlt⟩,
            if_pos ⟨hin.1, hin.2.1, hin.2.2.1, hin.2.2.2, by omega⟩]
        · rw [if_neg (by intro h; exact hlt h.2.2.2.2),
            if_neg (by intro h; have := h.2.2.2.2; omega)]
      · rw [if_neg (by intro h; exact hin ⟨h.1, h.2.1, h.2.2.1, h.2.2.2.1⟩),
          if_neg (by intro h; exact hin ⟨h.1, h.2.1, h.2.2.1, h.2.2.2.1⟩)]

/-- `fillBox` on a box whose rows and columns hold no non-zero cell
keeps the grid valid, and every cell it changes lies inside the box. -/
theorem fillBox_valid {g0 : Grid} (hWF0 : g0.WF) {m1 m2 br bc : Nat}
    (hbr : br = m1 * g0.boxRows) (hbc : bc = m2 * g0.boxCols)
    (hm1 : m1 < g0.size / g0.boxRows) (hm2 : m2 < g0.size / g0.boxCols)
    {vals : List Nat} (hperm : vals.Perm (List.range g0.size))
    (hV : g0.ValidD)
    (hzrow : ∀ r0 c0, br ≤ r0 → r0 < br + g0.boxRows → g0.get r0 c0 = 0)
    (hzcol : ∀ r0 c0, bc ≤ c0 → c0 < bc + g0.boxCols → g0.get r0 c0 = 0) :
    (applyWrites g0 ((List.range (g0.boxRows * g0.boxCols)).map
      fun idx => (br + idx / g0.boxCols, bc + idx % g0.boxCols,
        vals.getD idx 0 + 1))).ValidD ∧
    ∀ r0 c0,
      (applyWrites g0 ((List.range (g0.boxRows * g0.boxCols)).map
        fun idx => (br + idx / g0.boxCols, bc + idx % g0.boxCols,
          vals.getD idx 0 + 1))).get r0 c0 ≠ 0 →
      g0.get r0 c0 ≠ 0 ∨
        (br ≤ r0 ∧ r0 < br + g0.boxRows ∧ bc ≤ c0 ∧ c0 < bc + g0.boxCols) := by
  have hRpos : 0 < g0.boxRows := hWF0.2.2.2.1
  have hCpos : 0 < g0.boxCols := hWF0.2.2.2.2
  have hdim : g0.size = g0.boxRows * g0.boxCols := hWF0.2.2.1
  have hdvdR : g0.boxRows ∣ g0.size := ⟨g0.boxCols, hdim⟩
  have hdvdC : g0.boxCols ∣ g0.size := ⟨g0.boxRows, by rw [hdim, Nat.mul_comm]⟩
  have hsR : g0.size / g0.boxRows * g0.boxRows = g0.size :=
    Nat.div_mul_cancel hdvdR
  have hsC : g0.size / g0.boxCols * g0.boxCols = g0.size :=
    Nat.div_mul_cancel hdvdC
  have hbrle : br + g0.boxRows ≤ g0.size := by
    have h2 : (m1 + 1) * g0.boxRows ≤ g0.size / g0.boxRows * g0.boxRows :=
      Nat.mul_le_mul_right _ (by omega)
    have h3 : (m1 + 1) * g0.boxRows = m1 * g0.boxRows + g0.boxRows := by ring
    omega
  have hbcle : bc + g0.boxCols ≤ g0.size := by
    have h2 : (m2 + 1) * g0.boxCols ≤ g0.size / g0.boxCols * g0.boxCols :=
      Nat.mul_le_mul_right _ (by omega)
    have h3 : (m2 + 1) * g0.boxCols = m2 * g0.boxCols + g0.boxCols := by ring
    omega
  set w := applyWrites g0 ((List.range (g0.boxRows * g0.boxCols)).map
    fun idx => (br + idx / g0.boxCols, bc + idx % g0.boxCols,
      vals.getD idx 0 + 1)) with hw
  have hwsz : w.size = g0.size := by rw [hw]; exact applyWrites_size _ _
  have hwR : w.boxRows = g0.boxRows := by rw [hw]; exact applyWrites_boxRows _ _
  have hwC : w.boxCols = g0.boxCols := by rw [hw]; exact applyWrites_boxCols _ _
  have hget2 : ∀ r0 c0 : Nat, w.get r0 c0 =
      if br ≤ r0 ∧ r0 < br + g0.boxRows ∧ bc ≤ c0 ∧ c0 < bc + g0.boxCols
      then vals.getD ((r0 - br) * g0.boxCols + (c0 - bc)) 0 + 1
      else g0.get r0 c0 := by
    intro r0 c0
    rw [hw, @get_fillBox_writes g0 hWF0 br bc vals hbrle hbcle r0 c0
      (g0.boxRows * g0.boxCols) le_rfl]
    by_cases hin : br ≤ r0 ∧ r0 < br + g0.boxRows ∧ bc ≤ c0 ∧
        c0 < bc + g0.boxCols
    · rw [if_pos ⟨hin.1, hin.2.1, hin.2.2.1, hin.2.2.2,
        Grid.idx_lt _ _ (by omega) (by omega)⟩, if_pos hin]
    · rw [if_neg (fun h => hin ⟨h.1, h.2.1, h.2.2.1, h.2.2.2.1⟩),
        if_neg hin]
  have hvlen : vals.length = g0.size := by
    rw [hperm.length_eq, List.length_range]
  have hvnd : vals.Nodup := hperm.nodup_iff.mpr (List.nodup_range _)
  have hvlt : ∀ i, i < g0.size → vals.getD i 0 < g0.size := by
    intro i hi
    rw [List.getD_eq_getElem _ _ (by omega)]
    have hmem : vals[i] ∈ vals := List.getElem_mem (by omega)
    have h2 := hperm.mem_iff.mp hmem
    rw [List.mem_range] at h2
    exact h2
  have hvinj : ∀ i j, i < g0.size → j < g0.size → i ≠ j →
      vals.getD i 0 ≠ vals.getD j 0 := by
    intro i j hi hj hne heq
    rw [List.getD_eq_getElem _ _ (show i < vals.length by omega)] at heq
    rw [List.getD_eq_getElem _ _ (show j < vals.length by omega)] at heq
    exact hne ((hvnd.getElem_inj_iff).mp heq)
  have hrdiv1 : ∀ r0, br ≤ r0 → r0 < br + g0.boxRows →
      r0 / g0.boxRows = m1 := by
    intro r0 hl hu
    rw [show r0 = m1 * g0.boxRows + (r0 - br) by omega]
    exact Grid.band_div m1 _ (by omega)
  have hrdiv2 : ∀ r0, r0 / g0.boxRows = m1 →
      br ≤ r0 ∧ r0 < br + g0.boxRows := by
    intro r0 hd
    have e1 := Grid.divmul_add_mod r0 g0.boxRows
    rw [hd] at e1
    have e2 : r0 % g0.boxRows < g0.boxRows := Nat.mod_lt _ hRpos
    omega
  have hcdiv1 : ∀ c0, bc ≤ c0 → c0 < bc + g0.boxCols →
      c0 / g0.boxCols = m2 := by
    intro c0 hl hu
    rw [show c0 = m2 * g0.boxCols + (c0 - bc) by omega]
    exact Grid.band_div m2 _ (by omega)
  have hcdiv2 : ∀ c0, c0 / g0.boxCols = m2 →
      bc ≤ c0 ∧ c0 < bc + g0.boxCols := by
    intro c0 hd
    have e1 := Grid.divmul_add_mod c0 g0.boxCols
    rw [hd] at e1
    have e2 : c0 % g0.boxCols < g0.boxCols := Nat.mod_lt _ hCpos
    omega
  refine ⟨⟨?_, ?_, ?_, ?_⟩, ?_⟩
  · intro r0 c0 h0 h1
    rw [hwsz] at h0 h1
    rw [hget2 r0 c0, hwsz]
    by_cases hin : br ≤ r0 ∧ r0 < br + g0.boxRows ∧ bc ≤ c0 ∧
        c0 < bc + g0.boxCols
    · rw [if_pos hin]
      have hlt : (r0 - br) * g0.boxCols + (c0 - bc) < g0.size := by
        have := Grid.idx_lt (r0 - br) (c0 - bc)
          (show r0 - br < g0.boxRows by omega)
          (show c0 - bc < g0.boxCols by omega)
        omega
      have := hvlt _ hlt
      omega
    · rw [if_neg hin]
      exact hV.1 r0 c0 h0 h1
  · intro r0 c1 c2 h0 h1 h2 hne hnz0
    rw [hwsz] at h0 h1 h2
    rw [hget2 r0 c1] at hnz0 ⊢
    rw [hget2 r0 c2]
    by_cases ha : br ≤ r0 ∧ r0 < br + g0.boxRows ∧ bc ≤ c1 ∧
        c1 < bc + g0.boxCols
    · rw [if_pos ha]
      by_cases hb : br ≤ r0 ∧ r0 < br + g0.boxRows ∧ bc ≤ c2 ∧
          c2 < bc + g0.boxCols
      · rw [if_pos hb]
        have hi1 : (r0 - br) * g0.boxCols + (c1 - bc) < g0.size := by
          have := Grid.idx_lt (r0 - br) (c1 - bc)
            (show r0 - br < g0.boxRows by omega)
            (show c1 - bc < g0.boxCols by omega)
          omega
        have hi2 : (r0 - br) * g0.boxCols + (c2 - bc) < g0.size := by
          have := Grid.idx_lt (r0 - br) (c2 - bc)
            (show r0 - br < g0.boxRows by omega)
            (show c2 - bc < g0.boxCols by omega)
          omega
        have hidxne : (r0 - br) * g0.boxCols + (c1 - bc) ≠
            (r0 - br) * g0.boxCols + (c2 - bc) := by omega
        have := hvinj _ _ hi1 hi2 hidxne
        omega
      · rw [if_neg hb, hzrow r0 c2 ha.1 ha.2.1]
        omega
    · rw [if_neg ha] at hnz0 ⊢
      by_cases hb : br ≤ r0 ∧ r0 < br + g0.boxRows ∧ bc ≤ c2 ∧
          c2 < bc + g0.boxCols
      · exact absurd (hzrow r0 c1 hb.1 hb.2.1) hnz0
      · rw [if_neg hb]
        exact hV.2.1 r0 c1 c2 h0 h1 h2 hne hnz0
  · intro c0 r1 r2 h0 h1 h2 hne hnz0
    rw [hwsz] at h0 h1 h2
    rw [hget2 r1 c0] at hnz0 ⊢
    rw [hget2 r2 c0]
    by_cases ha : br ≤ r1 ∧ r1 < br + g0.boxRows ∧ bc ≤ c0 ∧
        c0 < bc + g0.boxCols
    · rw [if_pos ha]
      by_cases hb : br ≤ r2 ∧ r2 < br + g0.boxRows ∧ bc ≤ c0 ∧
          c0 < bc + g0.boxCols
      · rw [if_pos hb]
        have hi1 : (r1 - br) * g0.boxCols + (c0 - bc) < g0.size := by
          have := Grid.idx_lt (r1 - br) (c0 - bc)
            (show r1 - br < g0.boxRows by omega)
            (show c0 - bc < g0.boxCols by omega)
          omega
        have hi2 : (r2 - br) * g0.boxCols + (c0 - bc) < g0.size := by
          have := Grid.idx_lt (r2 - br) (c0 - bc)
            (show r2 - br < g0.boxRows by omega)
            (show c0 - bc < g0.boxCols by omega)
          omega
        have hoffne : r1 - br ≠ r2 - br := by omega
        have hidxne : (r1 - br) * g0.boxCols + (c0 - bc) ≠
            (r2 - br) * g0.boxCols + (c0 - bc) := by
          intro h
          have h2' : (r1 - br) * g0.boxCols = (r2 - br) * g0.boxCols := by
            omega
          exact hoffne (Nat.eq_of_mul_eq_mul_right hCpos h2')
        have := hvinj _ _ hi1 hi2 hidxne
        omega
      · rw [if_neg hb, hzcol r2 c0 ha.2.2.1 ha.2.2.2]
        omega
    · rw [if_neg ha] at hnz0 ⊢
      by_cases hb : br ≤ r2 ∧ r2 < br + g0.boxRows ∧ bc ≤ c0 ∧
          c0 < bc + g0.boxCols
      · exact absurd (hzcol r1 c0 hb.2.2.1 hb.2.2.2) hnz0
      · rw [if_neg hb]
        exact hV.2.2.1 c0 r1 r2 h0 h1 h2 hne hnz0
  · intro r1 c1 r2 c2 h1 h2 h3 h4 hsb hne hnz0
    rw [hwsz] at h1 h2 h3 h4
    have hsb0 : g0.SameBox r1 c1 r2 c2 := by
      refine ⟨?_, ?_⟩
      · rw [← hwR]
        exact hsb.1
      · rw [← hwC]
        exact hsb.2
    rw [hget2 r1 c1] at hnz0 ⊢
    rw [hget2 r2 c2]
    by_cases hbx : r1 / g0.boxRows = m1 ∧ c1 / g0.boxCols = m2
    · have hin1 := And.intro (hrdiv2 r1 hbx.1) (hcdiv2 c1 hbx.2)
      have hbx2 : r2 / g0.boxRows = m1 ∧ c2 / g0.boxCols = m2 := by
        obtain ⟨hs1, hs2⟩ := hsb0
        exact ⟨by rw [← hs1]; exact hbx.1, by rw [← hs2]; exact hbx.2⟩
      have hin2 := And.intro (hrdiv2 r2 hbx2.1) (hcdiv2 c2 hbx2.2)
      rw [if_pos ⟨hin1.1.1, hin1.1.2, hin1.2.1, hin1.2.2⟩,
        if_pos ⟨hin2.1.1, hin2.1.2, hin2.2.1, hin2.2.2⟩]
      have hi1 : (r1 - br) * g0.boxCols + (c1 - bc) < g0.size := by
        have := Grid.idx_lt (r1 - br) (c1 - bc)
          (show r1 - br < g0.boxRows by omega)
          (show c1 - bc < g0.boxCols by omega)
        omega
      have hi2 : (r2 - br) * g0.boxCols + (c2 - bc) < g0.size := by
        have := Grid.idx_lt (r2 - br) (c2 - bc)
          (show r2 - br < g0.boxRows by omega)
          (show c2 - bc < g0.boxCols by omega)
        omega
      have hidxne : (r1 - br) * g0.boxCols + (c1 - bc) ≠
          (r2 - br) * g0.boxCols + (c2 - bc) := by
        intro heq
        have hoff1 : c1 - bc < g0.boxCols := by omega
        have hoff2 : c2 - bc < g0.boxCols := by omega
        have hd1 := (Grid.idx_div_mod hCpos (r1 - br) (c1 - bc) hoff1).1
        have hq1 := (Grid.idx_div_mod hCpos (r1 - br) (c1 - bc) hoff1).2
        have hd2 := (Grid.idx_div_mod hCpos (r2 - br) (c2 - bc) hoff2).1
        have hq2 := (Grid.idx_div_mod hCpos (r2 - br) (c2 - bc) hoff2).2
        rw [heq] at hd1 hq1
        have hr12 : r1 = r2 := by omega
        have hc12 : c1 = c2 := by omega
        exact hne (by rw [hr12, hc12])
      have := hvinj _ _ hi1 hi2 hidxne
      omega
    · have hout1 : ¬(br ≤ r1 ∧ r1 < br + g0.boxRows ∧ bc ≤ c1 ∧
          c1 < bc + g0.boxCols) := by
        intro hin
        exact hbx ⟨hrdiv1 r1 hin.1 hin.2.1, hcdiv1 c1 hin.2.2.1 hin.2.2.2⟩
      have hout2 : ¬(br ≤ r2 ∧ r2 < br + g0.boxRows ∧ bc ≤ c2 ∧
          c2 < bc + g0.boxCols) := by
        intro hin
        obtain ⟨hs1, hs2⟩ := hsb0
        refine hbx ⟨?_, ?_⟩
        · rw [hs1]
          exact hrdiv1 r2 hin.1 hin.2.1
        · rw [hs2]
          exact hcdiv1 c2 hin.2.2.1 hin.2.2.2
      rw [if_neg hout1] at hnz0 ⊢
      rw [if_neg hout2]
      exact hV.2.2.2 r1 c1 r2 c2 h1 h2 h3 h4 hsb0 hne hnz0
  · intro r0 c0 hnz
    rw [hget2 r0 c0] at hnz
    by_cases hin : br ≤ r0 ∧ r0 < br + g0.boxRows ∧ bc ≤ c0 ∧
        c0 < bc + g0.boxCols
    · exact Or.inr hin
    · rw [if_neg hin] at hnz
      exact Or.inl hnz

/-- Seeding the diagonal boxes of an all-zero grid yields a well-formed
valid grid of the same dimensions. -/
theorem fillDiag_valid {σ : Type} {R : Rng σ} (hR : R.WF) {g : Grid}
    (hWF : g.WF) (hempty : ∀ r c, g.get r c = 0) (s : σ) :
    (g.fillDiag R s).1.size = g.size ∧
    (g.fillDiag R s).1.boxRows = g.boxRows ∧
    (g.fillDiag R s).1.boxCols = g.boxCols ∧
    (g.fillDiag R s).1.WF ∧ (g.fillDiag R s).1.ValidD := by
  have key : ∀ k, k ≤ min (g.size / g.boxRows) (g.size / g.boxCols) →
      ∀ p : Grid × σ, p = (List.range k).foldl
        (fun acc i => Grid.fillBox R acc.1 (i * g.boxRows) (i * g.boxCols)
          acc.2) (g, s) →
      p.1.size = g.size ∧ p.1.boxRows = g.boxRows ∧
      p.1.boxCols = g.boxCols ∧ p.1.WF ∧ p.1.ValidD ∧
      (∀ r0 c0, p.1.get r0 c0 ≠ 0 →
        r0 / g.boxRows < k ∧ r0 / g.boxRows = c0 / g.boxCols) := by
    intro k
    induction k with
    | zero =>
      intro _ p hp
      rw [List.range_zero, List.foldl_nil] at hp
      subst hp
      refine ⟨rfl, rfl, rfl, hWF, ⟨?_, ?_, ?_, ?_⟩, ?_⟩
      · intro r c _ _
        show g.get r c ≤ g.size
        rw [hempty]
        exact Nat.zero_le _
      · intro r c1 c2 _ _ _ _ hnz
        exact absurd (hempty r c1) hnz
      · intro c r1 r2 _ _ _ _ hnz
        exact absurd (hempty r1 c) hnz
      · intro r1 c1 r2 c2 _ _ _ _ _ _ hnz
        exact absurd (hempty r1 c1) hnz
      · intro r0 c0 h0
        exact absurd (hempty r0 c0) h0
    | succ k ih =>
      intro hk p hp
      rw [List.range_succ, List.foldl_append, List.foldl_cons,
        List.foldl_nil] at hp
      obtain ⟨q, hql⟩ : ∃ q, q = (List.range k).foldl
          (fun acc i => Grid.fillBox R acc.1 (i * g.boxRows)
            (i * g.boxCols) acc.2) (g, s) := ⟨_, rfl⟩
      rw [← hql] at hp
      obtain ⟨e1, e2, e3, e4, e5, e6⟩ := ih (le_trans (Nat.le_succ k) hk) q hql
      have hp' : p = Grid.fillBox R q.1 (k * g.boxRows) (k * g.boxCols)
          q.2 := hp
      have hp1 : p.1 = applyWrites q.1
          ((List.range (q.1.boxRows * q.1.boxCols)).map
            fun idx => (k * g.boxRows + idx / q.1.boxCols,
              k * g.boxCols + idx % q.1.boxCols,
              (R.perm q.1.size q.2).1.getD idx 0 + 1)) := by
        rw [hp']
        rfl
      have hzrow : ∀ r0 c0, k * g.boxRows ≤ r0 →
          r0 < k * g.boxRows + q.1.boxRows → q.1.get r0 c0 = 0 := by
        intro r0 c0 hl hu
        by_contra hnz
        have h6 := e6 r0 c0 hnz
        have hdd : r0 / g.boxRows = k := by
          rw [show r0 = k * g.boxRows + (r0 - k * g.boxRows) by omega]
          exact Grid.band_div k _ (by rw [e2] at hu; omega)
        omega
      have hzcol : ∀ r0 c0, k * g.boxCols ≤ c0 →
          c0 < k * g.boxCols + q.1.boxCols → q.1.get r0 c0 = 0 := by
        intro r0 c0 hl hu
        by_contra hnz
        have h6 := e6 r0 c0 hnz
        have hdd : c0 / g.boxCols = k := by
          rw [show c0 = k * g.boxCols + (c0 - k * g.boxCols) by omega]
          exact Grid.band_div k _ (by rw [e3] at hu; omega)
        omega
      have hbv := fillBox_valid e4
        (show k * g.boxRows = k * q.1.boxRows by rw [e2])
        (show k * g.boxCols = k * q.1.boxCols by rw [e3])
        (show k < q.1.size / q.1.boxRows by
          rw [e1, e2]
          exact Nat.lt_of_lt_of_le (Nat.lt_succ_self k)
            (le_trans hk (min_le_left _ _)))
        (show k < q.1.size / q.1.boxCols by
          rw [e1, e3]
          exact Nat.lt_of_lt_of_le (Nat.lt_succ_self k)
            (le_trans hk (min_le_right _ _)))
        (hR.2 q.1.size q.2) e5 hzrow hzcol
      obtain ⟨hV2, hloc⟩ := hbv
      rw [← hp1] at hV2 hloc
      refine ⟨?_, ?_, ?_, ?_, hV2, ?_⟩
      · rw [hp1, applyWrites_size]
        exact e1
      · rw [hp1, applyWrites_boxRows]
        exact e2
      · rw [hp1, applyWrites_boxCols]
        exact e3
      · rw [hp1]
        exact applyWrites_WF _ _ e4
      · intro r0 c0 hnz
        rcases hloc r0 c0 hnz with hold | hbox
        · have h6 := e6 r0 c0 hold
          exact ⟨by omega, h6.2⟩
        · obtain ⟨hb1, hb2, hb3, hb4⟩ := hbox
          rw [e2] at hb2
          rw [e3] at hb4
          have hd1 : r0 / g.boxRows = k := by
            rw [show r0 = k * g.boxRows + (r0 - k * g.boxRows) by omega]
            exact Grid.band_div k _ (by omega)
          have hd2 : c0 / g.boxCols = k := by
            rw [show c0 = k * g.boxCols + (c0 - k * g.boxCols) by omega]
            exact Grid.band_div k _ (by omega)
          refine ⟨by omega, by rw [hd1, hd2]⟩
  have h := key (min (g.size / g.boxRows) (g.size / g.boxCols)) le_rfl
    (g.fillDiag R s) rfl
  exact ⟨h.1, h.2.1, h.2.2.1, h.2.2.2.1, h.2.2.2.2.1⟩

/-- Unfolding of one attempt of the generator loop. -/
theorem genAttempts_succ {σ : Type} (R : Rng σ) (g : Grid) (d : Difficulty)
    (t : Nat) (s : σ) :
    genAttempts R g d (t + 1) s =
      match btAux R (g.size * g.size + 1) (Grid.fillDiag R g s).1
          (Grid.fillDiag R g s).2 with
      | (none, s2) => genAttempts R g d t s2
      | (some solved, s2) =>
        if (carve (g.cluesFor d) (R.perm (g.size * g.size) s2).1
            solved).hasUniqueSolution 2
        then (some (carve (g.cluesFor d) (R.perm (g.size * g.size) s2).1
          solved), (R.perm (g.size * g.size) s2).2)
        else genAttempts R g d t (R.perm (g.size * g.size) s2).2 := rfl

/-- Any puzzle returned by the attempt loop on an all-zero well-formed
grid passes the validator and the uniqueness check. -/
theorem genAttempts_sound {σ : Type} {R : Rng σ} (hR : R.WF) {g : Grid}
    (hWF : g.WF) (hempty : ∀ r c, g.get r c = 0) (d : Difficulty) :
    ∀ (t : Nat) (s : σ) (p : Grid) (s1 : σ),
    genAttempts R g d t s = (some p, s1) →
    p.WF ∧ p.validateB = true ∧ p.hasUniqueSolution 2 = true := by
  intro t
  induction t with
  | zero =>
    intro s p s1 h
    simp [genAttempts] at h
  | succ t ih =>
    intro s p s1 h
    rw [genAttempts_succ] at h
    rcases hbt : btAux R (g.size * g.size + 1) (Grid.fillDiag R g s).1
        (Grid.fillDiag R g s).2 with ⟨og, s2⟩
    rw [hbt] at h
    rcases og with - | solved
    · exact ih s2 p s1 h
    · have h' : (if (carve (g.cluesFor d) (R.perm (g.size * g.size) s2).1
            solved).hasUniqueSolution 2 = true
          then (some (carve (g.cluesFor d) (R.perm (g.size * g.size) s2).1
            solved), (R.perm (g.size * g.size) s2).2)
          else genAttempts R g d t (R.perm (g.size * g.size) s2).2)
          = (some p, s1) := h
      by_cases hu : (carve (g.cluesFor d) (R.perm (g.size * g.size) s2).1
          solved).hasUniqueSolution 2 = true
      · rw [if_pos hu] at h'
        have hps : carve (g.cluesFor d) (R.perm (g.size * g.size) s2).1
            solved = p := by
          have h2 := congrArg Prod.fst h'
          simpa using h2
        have hfd := fillDiag_valid hR hWF hempty s
        obtain ⟨-, -, -, hsWF, hsV, -, -⟩ := btAux_sound hR
          (g.size * g.size + 1) (Grid.fillDiag R g s).1
          (Grid.fillDiag R g s).2 solved s2 hfd.2.2.2.1 hfd.2.2.2.2 hbt
        obtain ⟨-, -, -, hpWF, hpV⟩ := carve_props (g.cluesFor d)
          (R.perm (g.size * g.size) s2).1 solved hsWF hsV
        rw [hps] at hpWF hpV hu
        exact ⟨hpWF, (Grid.validateB_iff_validD hpWF).mpr hpV, hu⟩
      · rw [if_neg hu] at h'
        exact ih _ p s1 h'

/-- **C2**: over any random source satisfying the Go contract, for every
difficulty and every attempt count, a puzzle returned by `Generate` on a
fresh grid of consistent dimensions passes `Validate` and has exactly one
complete legal assignment — equivalently, the uniqueness check with limit
2 holds on it. -/
theorem C2_generate_valid_unique {σ : Type} {R : Rng σ} (hR : R.WF)
    {size bR bC : Nat} (hdim : size = bR * bC) (hbR : 0 < bR)
    (hbC : 0 < bC) (d : Difficulty) (attempts : Nat) (s : σ) {p : Grid}
    {s1 : σ}
    (hgen : (emptyGrid size bR bC).generate R d attempts s = (some p, s1)) :
    p.validateB = true ∧ p.hasUniqueSolution 2 = true ∧
    ∃! w1, Grid.IsSolutionOf w1 p := by
  have hWF : (emptyGrid size bR bC).WF := emptyGrid_WF hdim hbR hbC
  rw [Grid.generate] at hgen
  obtain ⟨hpWF, hpv, hpu⟩ := genAttempts_sound hR hWF
    (fun r c => emptyGrid_get size bR bC r c) d (max attempts 1) s p s1 hgen
  exact ⟨hpv, hpu, (hasUnique_iff_aux p hpWF hpv).mp hpu⟩

/-- **C2** witness: the theorem applied to a 2×2 run with the identity
random source, whose generated puzzle is the full grid `[[1,2],[2,1]]`
(the clue target exceeds the cell count, so carving stops at once). -/
theorem C2_witness :
    ({ size := 2, boxRows := 1, boxCols := 2, cells := [[1, 2], [2, 1]] }
        : Grid).validateB = true ∧
    ({ size := 2, boxRows := 1, boxCols := 2, cells := [[1, 2], [2, 1]] }
        : Grid).hasUniqueSolution 2 = true ∧
    ∃! w1, Grid.IsSolutionOf w1
      { size := 2, boxRows := 1, boxCols := 2,
        cells := [[1, 2], [2, 1]] } :=
  @C2_generate_valid_unique Unit idRng idRng_wf 2 1 2 (by decide)
    (by decide) (by decide) Difficulty.medium 1 ()
    { size := 2, boxRows := 1, boxCols := 2, cells := [[1, 2], [2, 1]] }
    () (by decide)

/-- **C6**: `SetRandSeed(K)` replaces the shared random source by one
whose state is a function of the seed alone (`rand.New(rand.NewPCG(seed,
seed^0x9e3779b97f4a7c15))`), and `Generate` reads no other mutable state;
so two `Generate(Medium, N)` calls, each made right after
`SetRandSeed(K)` in otherwise identical program states, return the same
outcome — the same success flag, the same puzzle on success, and the
same final random state. -/
theorem C6_generate_deterministic {σ : Type} (R : Rng σ)
    (seedState : Nat → σ) (K : Nat) (g : Grid) (N : Nat) (s1 s2 : σ)
    (h1 : s1 = seedState K) (h2 : s2 = seedState K) :
    g.generate R Difficulty.medium N s1 =
      g.generate R Difficulty.medium N s2 := by
  rw [h1, h2]

/-- **C6** witness: the theorem applied to the 2×2 generator with a
concrete source and seed. -/
theorem C6_witness :
    (emptyGrid 2 1 2).generate idRng Difficulty.medium 1 () =
      (emptyGrid 2 1 2).generate idRng Difficulty.medium 1 () :=
  C6_generate_deterministic idRng (fun _ => ()) 7 (emptyGrid 2 1 2) 1 () ()
    rfl rfl

/-- A full 4×4 grid (boxes 2×2) that is all twos: full and invalid. -/
def allTwos4 : Grid :=
  { size := 4, boxRows := 2, boxCols := 2,
    cells := List.replicate 4 (List.replicate 4 2) }

/-- **C9**: on any grid with no empty (zero) cell, `Solve` returns that
grid unchanged with ok = true, without touching the random source; no
validity hypothesis is required, so success is reported even on a full
grid that violates the row, column and box rules (see the witness). -/
theorem C9_solve_full {σ : Type} (R : Rng σ) (g : Grid) (s : σ)
    (h : ∀ r c, r < g.size → c < g.size → g.get r c ≠ 0) :
    g.solve R s = (some g, s) :=
  Grid.solve_of_full R h s

/-- **C9** witness: the all-twos 4×4 grid is full and invalid, and `Solve`
returns it unchanged with ok = true. -/
theorem C9_witness :
    (∀ r c, r < allTwos4.size → c < allTwos4.size →
      allTwos4.get r c ≠ 0) ∧
    allTwos4.solve idRng () = (some allTwos4, ()) ∧
    allTwos4.validateB = false :=
  have hfull : ∀ r < allTwos4.size, ∀ c < allTwos4.size,
      allTwos4.get r c ≠ 0 := by decide
  ⟨fun r c hr hc => hfull r hr c hc,
    C9_solve_full idRng allTwos4 () (fun r c hr hc => hfull r hr c hc),
    by decide⟩

/-- A full, valid 4×4 grid (boxes 2×2). -/
def full4 : Grid :=
  { size := 4, boxRows := 2, boxCols := 2,
    cells := [[1, 2, 3, 4], [3, 4, 1, 2], [2, 1, 4, 3], [4, 3, 2, 1]] }

/-- **C10**: on any fully-filled grid that passes `Validate`, `HintGrid`
returns `(0, 0, 0, false)`: although the grid is valid and solvable (it is
its own solution), no empty cell exists, so no hint is produced. -/
theorem C10_hint_full {σ : Type} (R : Rng σ) (g : Grid) (s : σ)
    (hvalid : g.validateB = true)
    (hfull : ∀ r c, r < g.size → c < g.size → g.get r c ≠ 0) :
    g.hintGrid R s = ((0, 0, 0, false), s) := by
  simp [Grid.hintGrid, hvalid, Grid.solve_of_full R hfull s,
    Grid.findEmpty_eq_none_of_full hfull]

/-- **C10** witness: a concrete full valid 4×4 grid on which `HintGrid`
returns `(0, 0, 0, false)`. -/
theorem C10_witness :
    full4.validateB = true ∧
    (∀ r c, r < full4.size → c < full4.size → full4.get r c ≠ 0) ∧
    full4.hintGrid idRng () = ((0, 0, 0, false), ()) :=
  have hfull : ∀ r < full4.size, ∀ c < full4.size, full4.get r c ≠ 0 := by
    decide
  ⟨by decide, fun r c hr hc => hfull r hr c hc,
    C10_hint_full idRng full4 () (by decide)
      (fun r c hr hc => hfull r hr c hc)⟩

end GoSudoku
